import Mathlib

/-!
Verification of the maze-generation core (`src/mazegen/generator.py`) of the
A_Maze_ing repository.  The Python class `MazeGenerator` is shallowly embedded:
the grid is a list of rows of natural-number wall bitmasks, the seedable random
source is abstracted as a stream of naturals (`RNG`), and the stack-based
carving loop is modelled with an explicit fuel that is proved sufficient.
-/

namespace AMazeIng

/-- Wall-bit constant `MazeGenerator.NORTH`. -/
def NORTH : Nat := 1

/-- Wall-bit constant `MazeGenerator.EAST`. -/
def EAST : Nat := 2

/-- Wall-bit constant `MazeGenerator.SOUTH`. -/
def SOUTH : Nat := 4

/-- Wall-bit constant `MazeGenerator.WEST`. -/
def WEST : Nat := 8

/-- `MazeGenerator.ALL_WALLS`. -/
def ALL_WALLS : Nat := 15

/-- A cell coordinate `(x, y)`. -/
abbrev Cell := Nat × Nat

/-- The grid: `height` rows, each a list of `width` bitmasks (`grid[y][x]`). -/
abbrev Grid := List (List Nat)

/-- One recorded update `(x, y, new_bitmask)`, stored as `((x, y), value)`. -/
abbrev Update := Cell × Nat

/-- One history step: the pair of updates appended per wall removal. -/
abbrev Step := Update × Update

/-- The random source, abstracted as a stream of naturals.  Python's
`random.Random(seed)` yields a stream fully determined by the seed; each
`choice`/`randint` call consumes one stream element. -/
abbrev RNG := Nat → Nat

/-- Python `v & ~d`: subtracting `v &&& d` clears exactly the bits of `d`. -/
def removeBit (v d : Nat) : Nat := v - (v &&& d)

/-- Read `grid[y][x]` (out-of-range reads, which the source never performs on
its own grid, default to 0). -/
def gget (g : Grid) (c : Cell) : Nat := (g.getD c.2 []).getD c.1 0

/-- Write `grid[y][x] = v` (out-of-range writes are a no-op). -/
def gset (g : Grid) (c : Cell) (v : Nat) : Grid :=
  g.set c.2 ((g.getD c.2 []).set c.1 v)

/-- The freshly reset grid: `[[15 for _ in range(width)] for _ in range(height)]`. -/
def initGrid (w h : Nat) : Grid := List.replicate h (List.replicate w ALL_WALLS)

/-- The `opposite_direction` computation in `MazeGenerator._remove_wall`. -/
def opposite (d : Nat) : Nat :=
  if d = NORTH then SOUTH
  else if d = SOUTH then NORTH
  else if d = EAST then WEST
  else if d = WEST then EAST
  else 0

/-- `MazeGenerator._remove_wall`: clear bit `d` on `(x1, y1)`, the opposite bit
on `(x2, y2)`, and (when `record`) append one history step holding both
post-removal values. -/
def removeWall (grid : Grid) (hist : List Step) (x1 y1 x2 y2 d : Nat)
    (record : Bool) : Grid × List Step :=
  let g1 := gset grid (x1, y1) (removeBit (gget grid (x1, y1)) d)
  let g2 := gset g1 (x2, y2) (removeBit (gget g1 (x2, y2)) (opposite d))
  (g2,
    if record then
      hist ++ [(((x1, y1), gget g2 (x1, y1)), ((x2, y2), gget g2 (x2, y2)))]
    else hist)

/-- `rng.choice(l)`: pick the element at a stream-determined index.  The source
only calls it on non-empty lists, where the default is never used. -/
def choiceD {α : Type} (g : RNG) (i : Nat) (l : List α) (dflt : α) : α :=
  l.getD (g i % l.length) dflt

/-- `MazeGenerator._get_unvisited_neighbors`, in the source's N, S, E, W order. -/
def getUnvisitedNeighbors (w h x y : Nat) (visited : List Cell) :
    List (Nat × Nat × Nat) :=
  (if 0 < y ∧ (x, y - 1) ∉ visited then [(x, y - 1, NORTH)] else []) ++
  (if y < h - 1 ∧ (x, y + 1) ∉ visited then [(x, y + 1, SOUTH)] else []) ++
  (if x < w - 1 ∧ (x + 1, y) ∉ visited then [(x + 1, y, EAST)] else []) ++
  (if 0 < x ∧ (x - 1, y) ∉ visited then [(x - 1, y, WEST)] else [])

/-- The mutable state of the carving loop in `MazeGenerator.generate`. -/
structure CarveState where
  grid : Grid
  history : List Step
  stack : List Cell
  visited : List Cell
  idx : Nat
  deriving Repr

/-- One iteration of the `while stack:` loop: look at the stack top; if it has
unvisited neighbors, choose one, remove the wall, mark it visited and push it;
otherwise pop. -/
def carveStep (w h : Nat) (g : RNG) (s : CarveState) : CarveState :=
  match s.stack with
  | [] => s
  | (cx, cy) :: rest =>
    let ns := getUnvisitedNeighbors w h cx cy s.visited
    if ns = [] then { s with stack := rest }
    else
      let t := choiceD g s.idx ns (0, 0, 0)
      let p := removeWall s.grid s.history cx cy t.1 t.2.1 t.2.2 true
      { grid := p.1, history := p.2, stack := (t.1, t.2.1) :: s.stack,
        visited := (t.1, t.2.1) :: s.visited, idx := s.idx + 1 }

/-- The `while stack:` loop, run with explicit fuel (proved sufficient below). -/
def carveLoop (w h : Nat) (g : RNG) : Nat → CarveState → CarveState
  | 0, s => s
  | fuel + 1, s => if s.stack = [] then s else carveLoop w h g fuel (carveStep w h g s)

/-- The relative cell offsets of the '4' glyph (`pat_4`). -/
def pat4 : List Cell :=
  [(0, 0), (2, 0), (0, 1), (2, 1), (0, 2), (1, 2), (2, 2), (2, 3), (2, 4)]

/-- The relative cell offsets of the '2' glyph (`pat_2`). -/
def pat2 : List Cell :=
  [(0, 0), (1, 0), (2, 0), (2, 1), (0, 2), (1, 2), (2, 2), (0, 3), (0, 4), (1, 4), (2, 4)]

/-- `MazeGenerator._embed_42`: if the 7×5 glyph plus a margin does not fit
(`width < 9 or height < 7`), fail with an empty coordinate set; otherwise
translate both glyphs by the centered offset.  Returns (coords, failed). -/
def embed42 (w h : Nat) : List Cell × Bool :=
  if w < 7 + 2 ∨ h < 5 + 2 then ([], true)
  else
    let ox := (w - 7) / 2
    let oy := (h - 5) / 2
    (pat4.map (fun p => (ox + p.1, oy + p.2)) ++
     pat2.map (fun p => (ox + p.1 + 4, oy + p.2)), false)

/-- `walls_to_break = max(1, int((width * height) * 0.03))`.  For every product
below 2^51 the Python float expression `int(n * 0.03)` agrees with the exact
`⌊3n/100⌋` (the relative error of the double `0.03` is below half an ulp of the
product), so the integer form is used. -/
def wallsToBreak (w h : Nat) : Nat := max 1 (3 * (w * h) / 100)

/-- The `valid_walls` candidate list of `make_imperfect`: neighbor directions
whose wall is still present, in the source's N, S, E, W order. -/
def validWalls (w h : Nat) (grid : Grid) (x y : Nat) : List (Nat × Nat × Nat) :=
  (if 0 < y ∧ gget grid (x, y) &&& NORTH ≠ 0 then [(x, y - 1, NORTH)] else []) ++
  (if y < h - 1 ∧ gget grid (x, y) &&& SOUTH ≠ 0 then [(x, y + 1, SOUTH)] else []) ++
  (if x < w - 1 ∧ gget grid (x, y) &&& EAST ≠ 0 then [(x + 1, y, EAST)] else []) ++
  (if 0 < x ∧ gget grid (x, y) &&& WEST ≠ 0 then [(x - 1, y, WEST)] else [])

/-- One iteration of the `while` body of `MazeGenerator.make_imperfect`:
pick a random cell, skip pattern cells, collect walled neighbor directions,
pick one, skip pattern neighbors, remove the wall and append the history step
by hand.  Returns (grid, history, idx, removed?). -/
def imperfectTry (w h : Nat) (g : RNG) (pc : List Cell) (grid : Grid)
    (hist : List Step) (idx : Nat) : Grid × List Step × Nat × Bool :=
  let x := g idx % w
  let y := g (idx + 1) % h
  let idx2 := idx + 2
  if (x, y) ∈ pc then (grid, hist, idx2, false)
  else
    let vw := validWalls w h grid x y
    if vw = [] then (grid, hist, idx2, false)
    else
      let t := choiceD g idx2 vw (0, 0, 0)
      let idx3 := idx2 + 1
      if (t.1, t.2.1) ∈ pc then (grid, hist, idx3, false)
      else
        let p := removeWall grid hist x y t.1 t.2.1 t.2.2 false
        (p.1,
         hist ++ [(((x, y), gget p.1 (x, y)), ((t.1, t.2.1), gget p.1 (t.1, t.2.1)))],
         idx3, true)

/-- The `while count < walls_to_break and attempts < max_attempts:` loop.
`rem` is the remaining attempt budget (`max_attempts - attempts`).  Returns
(grid, history, idx, count, remaining budget). -/
def imperfectLoop (w h : Nat) (g : RNG) (pc : List Cell) :
    Nat → Nat → Nat → Grid → List Step → Nat →
    Grid × List Step × Nat × Nat × Nat
  | 0, count, _, grid, hist, idx => (grid, hist, idx, count, 0)
  | rem + 1, count, target, grid, hist, idx =>
    if count < target then
      let r := imperfectTry w h g pc grid hist idx
      imperfectLoop w h g pc rem (if r.2.2.2 then count + 1 else count) target
        r.1 r.2.1 r.2.2.1
    else (grid, hist, idx, count, rem + 1)

/-- `MazeGenerator.make_imperfect` (`max_attempts = 500`). -/
def makeImperfect (w h : Nat) (g : RNG) (pc : List Cell) (grid : Grid)
    (hist : List Step) (idx : Nat) : Grid × List Step × Nat × Nat × Nat :=
  imperfectLoop w h g pc 500 0 (wallsToBreak w h) grid hist idx

/-- The state published by a `MazeGenerator.generate` run. -/
structure MazeResult where
  grid : Grid
  history : List Step
  pattern : List Cell
  patternFailed : Bool
  visited : List Cell
  deriving Repr

/-- The state at the top of the carving loop: grid reset to all walls, history
cleared, `(0,0)` pushed and visited, pattern coordinates pre-visited. -/
def initState (w h : Nat) : CarveState :=
  { grid := initGrid w h, history := [], stack := [(0, 0)],
    visited := (0, 0) :: (embed42 w h).1, idx := 0 }

/-- The completed carving run (fuel `2*w*h + 1`, proved sufficient below). -/
def carveResult (w h : Nat) (g : RNG) : CarveState :=
  carveLoop w h g (2 * w * h + 1) (initState w h)

/-- `MazeGenerator.generate`: reset everything, mark `(0,0)` visited, embed the
'42' pattern into the visited set, run the backtracker until the stack is
empty, then optionally `make_imperfect`. -/
def generate (w h : Nat) (g : RNG) (perfect : Bool) : MazeResult :=
  let e := embed42 w h
  let s := carveResult w h g
  if perfect then
    { grid := s.grid, history := s.history, pattern := e.1,
      patternFailed := e.2, visited := s.visited }
  else
    let r := makeImperfect w h g e.1 s.grid s.history s.idx
    { grid := r.1, history := r.2.1, pattern := e.1,
      patternFailed := e.2, visited := s.visited }

/-- A deterministic seed-to-stream expansion standing for `random.Random(seed)`
(a linear congruential iterate; only *determinism* of the stream in the seed
matters for the claims, not its distribution). -/
def seedStream (seed : Nat) : RNG :=
  fun n => (seed * 1103515245 + 12345 + n * 2147483647) % 2147483648

/-- `generate` as invoked through a constructor seed. -/
def generateSeeded (w h seed : Nat) (perfect : Bool) : MazeResult :=
  generate w h (seedStream seed) perfect

/-- `MazeGenerator._validate_border_point` (coordinates are Python ints,
hence `Int` here). -/
def validateBorderPoint (w h : Nat) (name : String) (p : Int × Int) :
    Except String Unit :=
  if ¬ (0 ≤ p.1 ∧ p.1 < (w : Int) ∧ 0 ≤ p.2 ∧ p.2 < (h : Int)) then
    Except.error (name ++ " is outside maze bounds.")
  else if ¬ (p.1 = 0 ∨ p.1 = (w : Int) - 1 ∨ p.2 = 0 ∨ p.2 = (h : Int) - 1) then
    Except.error (name ++ " must be on the maze border.")
  else Except.ok ()

/-- `MazeGenerator.set_entry_exit`: validate entry, then exit, then equality. -/
def setEntryExit (w h : Nat) (entry exitP : Int × Int) : Except String Unit :=
  match validateBorderPoint w h "Entry" entry with
  | Except.error e => Except.error e
  | Except.ok _ =>
    match validateBorderPoint w h "Exit" exitP with
    | Except.error e => Except.error e
    | Except.ok _ =>
      if entry = exitP then
        Except.error "Entry and Exit cannot be the same coordinate."
      else Except.ok ()

/-! ### Basic list-access lemmas -/

theorem getD_set_eq {α : Type} (l : List α) (i : Nat) (a d : α) (h : i < l.length) :
    (l.set i a).getD i d = a := by
  induction l generalizing i with
  | nil => simp at h
  | cons x xs ih =>
    cases i with
    | zero => simp
    | succ n => simpa using ih n (by simpa using h)

theorem getD_set_ne {α : Type} (l : List α) (i j : Nat) (a d : α) (h : i ≠ j) :
    (l.set i a).getD j d = l.getD j d := by
  induction l generalizing i j with
  | nil => simp
  | cons x xs ih =>
    cases i with
    | zero => cases j with
      | zero => exact absurd rfl h
      | succ m => simp
    | succ n => cases j with
      | zero => simp
      | succ m => simpa using ih n m (by omega)

theorem set_oob {α : Type} (l : List α) (i : Nat) (a : α) (h : l.length ≤ i) :
    l.set i a = l := by
  induction l generalizing i with
  | nil => simp
  | cons x xs ih =>
    cases i with
    | zero => simp at h
    | succ n => simpa using ih n (by simpa using h)

/-! ### Grid shape and access -/

/-- In-bounds predicate for a cell. -/
def inB (w h : Nat) (c : Cell) : Prop := c.1 < w ∧ c.2 < h

instance (w h : Nat) (c : Cell) : Decidable (inB w h c) := by
  unfold inB; infer_instance

/-- The grid has `h` rows of length `w`. -/
def gridShape (w h : Nat) (g : Grid) : Prop :=
  g.length = h ∧ ∀ r ∈ g, r.length = w

theorem initGrid_shape (w h : Nat) : gridShape w h (initGrid w h) := by
  constructor
  · simp [initGrid]
  · intro r hr
    rw [List.eq_of_mem_replicate hr]
    simp

theorem gget_initGrid {w h : Nat} {c : Cell} (hc : inB w h c) :
    gget (initGrid w h) c = ALL_WALLS := by
  obtain ⟨h1, h2⟩ := hc
  simp [gget, initGrid, List.getD, List.getElem?_replicate, h1, h2]

theorem gset_shape {w h : Nat} {g : Grid} (hs : gridShape w h g) (c : Cell) (v : Nat) :
    gridShape w h (gset g c v) := by
  obtain ⟨hl, hr⟩ := hs
  by_cases hy : c.2 < g.length
  · constructor
    · simp [gset, hl]
    · intro r hr'
      rcases List.mem_or_eq_of_mem_set hr' with hm | rfl
      · exact hr r hm
      · have : g.getD c.2 [] = g[c.2] := by
          simp [List.getD, List.getElem?_eq_getElem hy]
        rw [List.length_set, this]
        exact hr _ (g.getElem_mem hy)
  · unfold gset
    rw [set_oob _ _ _ (by omega)]
    exact ⟨hl, hr⟩

theorem gget_gset_same {w h : Nat} {g : Grid} (hs : gridShape w h g) {c : Cell}
    (hc : inB w h c) (v : Nat) : gget (gset g c v) c = v := by
  obtain ⟨hl, hr⟩ := hs
  have hy : c.2 < g.length := by rw [hl]; exact hc.2
  have hrow : g.getD c.2 [] = g[c.2] := by
    simp [List.getD, List.getElem?_eq_getElem hy]
  unfold gget gset
  rw [getD_set_eq _ _ _ _ hy, getD_set_eq]
  rw [hrow, hr _ (g.getElem_mem hy)]
  exact hc.1

theorem gget_gset_ne {g : Grid} {c c' : Cell} (h : c' ≠ c) (v : Nat) :
    gget (gset g c v) c' = gget g c' := by
  unfold gget gset
  by_cases hy : c'.2 = c.2
  · have hx : c'.1 ≠ c.1 := by
      intro hx; exact h (Prod.ext hx hy)
    rw [hy]
    by_cases hlen : c.2 < g.length
    · rw [getD_set_eq _ _ _ _ hlen, getD_set_ne _ _ _ _ _ (fun he => hx he.symm)]
    · rw [set_oob _ _ _ (by omega)]
  · rw [getD_set_ne _ _ _ _ _ (fun he => hy he.symm)]

/-! ### Direction and bitmask lemmas -/

/-- `d` is one of the four wall-bit constants. -/
def isDir (d : Nat) : Prop := d = NORTH ∨ d = SOUTH ∨ d = EAST ∨ d = WEST

instance (d : Nat) : Decidable (isDir d) := by
  unfold isDir; infer_instance

theorem opposite_isDir {d : Nat} (hd : isDir d) : isDir (opposite d) := by
  rcases hd with rfl | rfl | rfl | rfl <;> decide

theorem opposite_opposite {d : Nat} (hd : isDir d) : opposite (opposite d) = d := by
  rcases hd with rfl | rfl | rfl | rfl <;> decide

theorem opposite_inj {d d' : Nat} (hd : isDir d) (hd' : isDir d')
    (h : opposite d = opposite d') : d = d' := by
  rcases hd with rfl | rfl | rfl | rfl <;>
    rcases hd' with rfl | rfl | rfl | rfl <;> revert h <;> decide

theorem removeBit_le (v d : Nat) : removeBit v d ≤ v := Nat.sub_le _ _

theorem removeBit_and_self {v d : Nat} (hv : v ≤ 15) (hd : isDir d) :
    removeBit v d &&& d = 0 := by
  rcases hd with rfl | rfl | rfl | rfl <;> revert hv <;> revert v <;> decide

theorem removeBit_and_other {v d d' : Nat} (hv : v ≤ 15) (hd : isDir d)
    (hd' : isDir d') (hne : d ≠ d') : removeBit v d &&& d' = v &&& d' := by
  rcases hd with rfl | rfl | rfl | rfl <;> rcases hd' with rfl | rfl | rfl | rfl <;>
    first
    | exact absurd rfl hne
    | (revert hv; revert v; decide)

theorem removeBit_and_clear {v d m : Nat} (hv : v ≤ 15) (hd : isDir d)
    (hm : isDir m) (h : v &&& m = 0) : removeBit v d &&& m = 0 := by
  by_cases he : d = m
  · subst he; exact removeBit_and_self hv hd
  · rw [removeBit_and_other hv hd hm he]; exact h

theorem removeBit_submask {v d : Nat} (hv : v ≤ 15) (hd : isDir d) :
    removeBit v d &&& v = removeBit v d := by
  rcases hd with rfl | rfl | rfl | rfl <;> revert hv <;> revert v <;> decide

theorem all_walls_and_dir {d : Nat} (hd : isDir d) : ALL_WALLS &&& d ≠ 0 := by
  rcases hd with rfl | rfl | rfl | rfl <;> decide

/-! ### Grid-adjacency graph -/

/-- The direction bit from cell `a` to a grid-adjacent cell `b`, if any. -/
def dirFromTo (a b : Cell) : Option Nat :=
  if a.1 = b.1 ∧ a.2 = b.2 + 1 then some NORTH
  else if a.1 = b.1 ∧ b.2 = a.2 + 1 then some SOUTH
  else if a.2 = b.2 ∧ b.1 = a.1 + 1 then some EAST
  else if a.2 = b.2 ∧ a.1 = b.1 + 1 then some WEST
  else none

theorem dirFromTo_some_iff {a b : Cell} {d : Nat} :
    dirFromTo a b = some d ↔
      ((d = NORTH ∧ a.1 = b.1 ∧ a.2 = b.2 + 1) ∨
       (d = SOUTH ∧ a.1 = b.1 ∧ b.2 = a.2 + 1) ∨
       (d = EAST ∧ a.2 = b.2 ∧ b.1 = a.1 + 1) ∨
       (d = WEST ∧ a.2 = b.2 ∧ a.1 = b.1 + 1)) := by
  unfold dirFromTo NORTH SOUTH EAST WEST
  split_ifs with h1 h2 h3 h4 <;> constructor <;> intro hyp <;>
    first
    | (injection hyp with hyp; omega)
    | (rcases hyp with ⟨rfl, hyp⟩ | ⟨rfl, hyp⟩ | ⟨rfl, hyp⟩ | ⟨rfl, hyp⟩ <;>
        first
        | rfl
        | omega)
    | omega

theorem dirFromTo_isDir {a b : Cell} {d : Nat} (h : dirFromTo a b = some d) :
    isDir d := by
  rcases dirFromTo_some_iff.1 h with ⟨rfl, _⟩ | ⟨rfl, _⟩ | ⟨rfl, _⟩ | ⟨rfl, _⟩ <;>
    unfold isDir <;> tauto

theorem dirFromTo_self (a : Cell) : dirFromTo a a = none := by
  unfold dirFromTo
  split_ifs with h1 h2 h3 h4 <;> first | rfl | omega

theorem dirFromTo_ne {a b : Cell} {d : Nat} (h : dirFromTo a b = some d) :
    a ≠ b := by
  intro he; rw [he, dirFromTo_self] at h; exact Option.noConfusion h

theorem dirFromTo_symm {a b : Cell} {d : Nat} (h : dirFromTo a b = some d) :
    dirFromTo b a = some (opposite d) := by
  rcases dirFromTo_some_iff.1 h with ⟨rfl, h1, h2⟩ | ⟨rfl, h1, h2⟩ |
    ⟨rfl, h1, h2⟩ | ⟨rfl, h1, h2⟩ <;>
    (rw [dirFromTo_some_iff]; unfold opposite NORTH SOUTH EAST WEST; norm_num; omega)

theorem dirFromTo_none_symm {a b : Cell} (h : dirFromTo a b = none) :
    dirFromTo b a = none := by
  cases hd : dirFromTo b a with
  | none => rfl
  | some d => rw [dirFromTo_symm hd] at h; exact Option.noConfusion h

theorem dirFromTo_target_inj {a b b' : Cell} {d : Nat}
    (h : dirFromTo a b = some d) (h' : dirFromTo a b' = some d) : b = b' := by
  have hb := dirFromTo_some_iff.1 h
  have hb' := dirFromTo_some_iff.1 h'
  have : b.1 = b'.1 ∧ b.2 = b'.2 := by
    rcases hb with ⟨rfl, h1, h2⟩ | ⟨rfl, h1, h2⟩ | ⟨rfl, h1, h2⟩ | ⟨rfl, h1, h2⟩ <;>
      rcases hb' with ⟨he, h1', h2'⟩ | ⟨he, h1', h2'⟩ | ⟨he, h1', h2'⟩ | ⟨he, h1', h2'⟩ <;>
      first
      | omega
      | (exfalso; simp only [NORTH, SOUTH, EAST, WEST] at he; omega)
  exact Prod.ext this.1 this.2

theorem dirFromTo_source_inj {a a' b : Cell} {d : Nat}
    (h : dirFromTo a b = some d) (h' : dirFromTo a' b = some d) : a = a' := by
  have h2 := dirFromTo_symm h
  have h2' := dirFromTo_symm h'
  exact dirFromTo_target_inj h2 h2'

/-- Symmetric open-wall adjacency on the final bitmask grid: the two cells are
grid neighbors and both facing wall bits are clear. -/
def openAdjB (grid : Grid) (a b : Cell) : Bool :=
  match dirFromTo a b with
  | some d => (gget grid a &&& d == 0) && (gget grid b &&& opposite d == 0)
  | none => false

theorem openAdjB_symm {grid : Grid} {a b : Cell} (h : openAdjB grid a b = true) :
    openAdjB grid b a = true := by
  unfold openAdjB at h ⊢
  cases hd : dirFromTo a b with
  | none => rw [hd] at h; exact absurd h (by simp)
  | some d =>
    rw [hd] at h
    rw [dirFromTo_symm hd]
    simp only [Bool.and_eq_true, beq_iff_eq] at h ⊢
    rw [opposite_opposite (dirFromTo_isDir hd)]
    exact ⟨h.2, h.1⟩

theorem openAdjB_ne {grid : Grid} {a b : Cell} (h : openAdjB grid a b = true) :
    a ≠ b := by
  unfold openAdjB at h
  cases hd : dirFromTo a b with
  | none => rw [hd] at h; exact absurd h (by simp)
  | some d => exact dirFromTo_ne hd

/-- The open-wall connectivity graph over all in-bounds cells. -/
def coordGraph (w h : Nat) (grid : Grid) : SimpleGraph Cell where
  Adj a b := (inB w h a ∧ inB w h b) ∧ openAdjB grid a b = true
  symm := by
    intro a b ⟨⟨ha, hb⟩, hadj⟩
    exact ⟨⟨hb, ha⟩, openAdjB_symm hadj⟩
  loopless := by
    intro a ⟨_, hadj⟩
    exact openAdjB_ne hadj rfl

/-! ### Effect of `removeWall` on the grid -/

section RemoveWall

variable {w h : Nat} {grid : Grid} {hist : List Step} {c n : Cell} {d : Nat}

theorem removeWall_grid_def (grid : Grid) (hist : List Step) (c n : Cell) (d : Nat)
    (rec : Bool) :
    (removeWall grid hist c.1 c.2 n.1 n.2 d rec).1 =
      gset (gset grid c (removeBit (gget grid c) d)) n
        (removeBit (gget (gset grid c (removeBit (gget grid c) d)) n) (opposite d)) := by
  rfl

theorem removeWall_gget_c (hs : gridShape w h grid) (hc : inB w h c)
    (hcn : c ≠ n) (rec : Bool) :
    gget (removeWall grid hist c.1 c.2 n.1 n.2 d rec).1 c =
      removeBit (gget grid c) d := by
  rw [removeWall_grid_def, gget_gset_ne hcn, gget_gset_same hs hc]

theorem removeWall_gget_n (hs : gridShape w h grid) (hn : inB w h n)
    (hcn : c ≠ n) (rec : Bool) :
    gget (removeWall grid hist c.1 c.2 n.1 n.2 d rec).1 n =
      removeBit (gget grid n) (opposite d) := by
  rw [removeWall_grid_def,
    gget_gset_same (gset_shape hs c _) hn,
    gget_gset_ne (fun he => hcn he.symm)]

theorem removeWall_gget_other {c' : Cell} (h1 : c' ≠ c) (h2 : c' ≠ n) (rec : Bool) :
    gget (removeWall grid hist c.1 c.2 n.1 n.2 d rec).1 c' = gget grid c' := by
  rw [removeWall_grid_def, gget_gset_ne h2, gget_gset_ne h1]

theorem removeWall_shape (hs : gridShape w h grid) (rec : Bool) :
    gridShape w h (removeWall grid hist c.1 c.2 n.1 n.2 d rec).1 := by
  rw [removeWall_grid_def]
  exact gset_shape (gset_shape hs _ _) _ _

theorem removeWall_hist_record (grid : Grid) (hist : List Step) (c n : Cell) (d : Nat) :
    (removeWall grid hist c.1 c.2 n.1 n.2 d true).2 =
      hist ++ [((c, gget (removeWall grid hist c.1 c.2 n.1 n.2 d true).1 c),
                (n, gget (removeWall grid hist c.1 c.2 n.1 n.2 d true).1 n))] := by
  rfl

theorem removeWall_hist_norecord (grid : Grid) (hist : List Step) (c n : Cell) (d : Nat) :
    (removeWall grid hist c.1 c.2 n.1 n.2 d false).2 = hist := by
  rfl

theorem removeWall_le15 (hs : gridShape w h grid) (hc : inB w h c) (hn : inB w h n)
    (hcn : c ≠ n) (hle : ∀ c', inB w h c' → gget grid c' ≤ 15) (rec : Bool) :
    ∀ c', inB w h c' → gget (removeWall grid hist c.1 c.2 n.1 n.2 d rec).1 c' ≤ 15 := by
  intro c' hc'
  by_cases h1 : c' = c
  · subst h1
    rw [removeWall_gget_c hs hc hcn]
    exact le_trans (removeBit_le _ _) (hle _ hc')
  by_cases h2 : c' = n
  · subst h2
    rw [removeWall_gget_n hs hn hcn]
    exact le_trans (removeBit_le _ _) (hle _ hc')
  · rw [removeWall_gget_other h1 h2]
    exact hle _ hc'

end RemoveWall

/-! ### Wall symmetry -/

/-- The wall-symmetry invariant: for every in-bounds grid-adjacent pair, the
facing wall bits agree (both absent or both present). -/
def wallSym (w h : Nat) (grid : Grid) : Prop :=
  ∀ a b d, inB w h a → inB w h b → dirFromTo a b = some d →
    (gget grid a &&& d = 0 ↔ gget grid b &&& opposite d = 0)

theorem wallSym_initGrid (w h : Nat) : wallSym w h (initGrid w h) := by
  intro a b d ha hb hd
  rw [gget_initGrid ha, gget_initGrid hb]
  constructor
  · intro hz; exact absurd hz (all_walls_and_dir (dirFromTo_isDir hd))
  · intro hz; exact absurd hz (all_walls_and_dir (opposite_isDir (dirFromTo_isDir hd)))

theorem wallSym_removeWall {w h : Nat} {grid : Grid} {hist : List Step}
    {c n : Cell} {d : Nat} (hs : gridShape w h grid) (hc : inB w h c)
    (hn : inB w h n) (hd : dirFromTo c n = some d)
    (hle : ∀ c', inB w h c' → gget grid c' ≤ 15)
    (hsym : wallSym w h grid) (rec : Bool) :
    wallSym w h (removeWall grid hist c.1 c.2 n.1 n.2 d rec).1 := by
  have hdd : isDir d := dirFromTo_isDir hd
  have hcn : c ≠ n := dirFromTo_ne hd
  have hnc : dirFromTo n c = some (opposite d) := dirFromTo_symm hd
  intro a b d' ha hb hab
  have hdd' : isDir d' := dirFromTo_isDir hab
  have hba : dirFromTo b a = some (opposite d') := dirFromTo_symm hab
  by_cases hac : a = c
  · subst hac
    by_cases hbn : b = n
    · subst hbn
      have : d' = d := Option.some_injective _ (hab ▸ hd)
      subst this
      rw [removeWall_gget_c hs hc hcn, removeWall_gget_n hs hn hcn]
      rw [removeBit_and_self (hle _ hc) hdd,
        removeBit_and_self (hle _ hn) (opposite_isDir hdd)]
    · -- a = c, b ∉ {c, n} : direction d' ≠ d, both sides untouched in bit d'
      have hbc : b ≠ a := (dirFromTo_ne hab).symm
      have hdne : d' ≠ d := by
        intro he; subst he; exact hbn (dirFromTo_target_inj hab hd)
      rw [removeWall_gget_c hs hc hcn,
        removeWall_gget_other hbc hbn,
        removeBit_and_other (hle _ hc) hdd hdd' (fun he => hdne he.symm)]
      exact hsym a b d' ha hb hab
  by_cases han : a = n
  · subst han
    by_cases hbc : b = c
    · subst hbc
      have : d' = opposite d := Option.some_injective _ (hab ▸ hnc)
      subst this
      rw [removeWall_gget_c hs hc hcn, removeWall_gget_n hs hn hcn,
        opposite_opposite hdd]
      rw [removeBit_and_self (hle _ hc) hdd,
        removeBit_and_self (hle _ hn) (opposite_isDir hdd)]
    · -- a = n, b ∉ {c, n} : direction d' ≠ opposite d
      have hbn : b ≠ a := (dirFromTo_ne hab).symm
      have hdne : d' ≠ opposite d := by
        intro he; subst he; exact hbc (dirFromTo_target_inj hab hnc)
      rw [removeWall_gget_n hs hn hcn,
        removeWall_gget_other hbc hbn,
        removeBit_and_other (hle _ hn) (opposite_isDir hdd) hdd'
          (fun he => hdne he.symm)]
      exact hsym a b d' ha hb hab
  · -- a ∉ {c, n}
    rw [removeWall_gget_other hac han]
    by_cases hbc : b = c
    · subst hbc
      have hone : opposite d' ≠ d := by
        intro he
        have : dirFromTo b a = some d := he ▸ hba
        exact han (dirFromTo_target_inj this hd)
      rw [removeWall_gget_c hs hc hcn,
        removeBit_and_other (hle _ hc) hdd (opposite_isDir hdd')
          (fun he => hone he.symm)]
      exact hsym a b d' ha hb hab
    by_cases hbn : b = n
    · subst hbn
      have hone : opposite d' ≠ opposite d := by
        intro he
        have hde : d' = d := opposite_inj hdd' hdd he
        exact hac (dirFromTo_source_inj hab (hde ▸ hd))
      rw [removeWall_gget_n hs hn hcn,
        removeBit_and_other (hle _ hn) (opposite_isDir hdd) (opposite_isDir hdd')
          (fun he => hone he.symm)]
      exact hsym a b d' ha hb hab
    · rw [removeWall_gget_other hbc hbn]
      exact hsym a b d' ha hb hab

/-! ### Adjacency after a wall removal -/

theorem coordGraph_adj_some {w h : Nat} {grid : Grid} {a b : Cell} {d' : Nat}
    (hab : dirFromTo a b = some d') :
    (coordGraph w h grid).Adj a b ↔
      ((inB w h a ∧ inB w h b) ∧
       (gget grid a &&& d' = 0 ∧ gget grid b &&& opposite d' = 0)) := by
  show ((inB w h a ∧ inB w h b) ∧ openAdjB grid a b = true) ↔ _
  unfold openAdjB
  rw [hab]
  simp

theorem coordGraph_adj_none {w h : Nat} {grid : Grid} {a b : Cell}
    (hab : dirFromTo a b = none) : ¬ (coordGraph w h grid).Adj a b := by
  intro hadj
  have : openAdjB grid a b = true := hadj.2
  unfold openAdjB at this
  rw [hab] at this
  exact Bool.noConfusion this

/-- After removing the wall between `c` and a fully-walled fresh cell `n`, the
adjacency relation gains exactly the edge `{c, n}`. -/
theorem coordGraph_removeWall_adj {w h : Nat} {grid : Grid} {hist : List Step}
    {c n : Cell} {d : Nat} (hs : gridShape w h grid) (hc : inB w h c)
    (hn : inB w h n) (hd : dirFromTo c n = some d) (hfresh : gget grid n = ALL_WALLS)
    (hle : ∀ c', inB w h c' → gget grid c' ≤ 15) (rec : Bool) (a b : Cell) :
    (coordGraph w h (removeWall grid hist c.1 c.2 n.1 n.2 d rec).1).Adj a b ↔
      ((coordGraph w h grid).Adj a b ∨ (a = c ∧ b = n) ∨ (a = n ∧ b = c)) := by
  have hdd : isDir d := dirFromTo_isDir hd
  have hcn : c ≠ n := dirFromTo_ne hd
  have hnc : dirFromTo n c = some (opposite d) := dirFromTo_symm hd
  cases hab : dirFromTo a b with
  | none =>
    constructor
    · intro hadj; exact absurd hadj (coordGraph_adj_none hab)
    · rintro (hadj | ⟨rfl, rfl⟩ | ⟨rfl, rfl⟩)
      · exact absurd hadj (coordGraph_adj_none hab)
      · rw [hab] at hd; exact Option.noConfusion hd
      · rw [hab] at hnc; exact Option.noConfusion hnc
  | some d' =>
    have hdd' : isDir d' := dirFromTo_isDir hab
    rw [coordGraph_adj_some hab, coordGraph_adj_some hab]
    by_cases hac : a = c
    · subst hac
      by_cases hbn : b = n
      · subst hbn
        have hde : d' = d := Option.some_injective _ (hab ▸ hd)
        subst hde
        rw [removeWall_gget_c hs hc hcn, removeWall_gget_n hs hn hcn]
        constructor
        · intro _; exact Or.inr (Or.inl ⟨rfl, rfl⟩)
        · intro _
          exact ⟨⟨hc, hn⟩, removeBit_and_self (hle _ hc) hdd,
            removeBit_and_self (hle _ hn) (opposite_isDir hdd)⟩
      · have hba : b ≠ a := (dirFromTo_ne hab).symm
        have hdne : d' ≠ d := by
          intro he; subst he; exact hbn (dirFromTo_target_inj hab hd)
        rw [removeWall_gget_c hs hc hcn, removeWall_gget_other hba hbn,
          removeBit_and_other (hle _ hc) hdd hdd' (fun he => hdne he.symm)]
        constructor
        · intro hx; exact Or.inl hx
        · rintro (hx | ⟨-, rfl⟩ | ⟨he, -⟩)
          · exact hx
          · exact absurd rfl hbn
          · exact absurd he.symm (fun hh => hcn hh.symm)
    by_cases han : a = n
    · subst han
      by_cases hbc : b = c
      · subst hbc
        have hde : d' = opposite d := Option.some_injective _ (hab ▸ hnc)
        subst hde
        rw [removeWall_gget_c hs hc hcn, removeWall_gget_n hs hn hcn,
          opposite_opposite hdd]
        constructor
        · intro _; exact Or.inr (Or.inr ⟨rfl, rfl⟩)
        · intro _
          exact ⟨⟨hn, hc⟩, removeBit_and_self (hle _ hn) (opposite_isDir hdd),
            removeBit_and_self (hle _ hc) hdd⟩
      · have hbn : b ≠ a := (dirFromTo_ne hab).symm
        have hdne : d' ≠ opposite d := by
          intro he; subst he; exact hbc (dirFromTo_target_inj hab hnc)
        rw [removeWall_gget_n hs hn hcn, removeWall_gget_other hbc hbn,
          removeBit_and_other (hle _ hn) (opposite_isDir hdd) hdd'
            (fun he => hdne he.symm), hfresh]
        constructor
        · intro ⟨_, hz, _⟩
          exact absurd hz (all_walls_and_dir hdd')
        · rintro (⟨_, hz, _⟩ | ⟨he, -⟩ | ⟨-, rfl⟩)
          · exact absurd hz (all_walls_and_dir hdd')
          · exact absurd he (fun hh => hcn hh.symm)
          · exact absurd rfl hbc
    · rw [removeWall_gget_other hac han]
      by_cases hbc : b = c
      · subst hbc
        have hone : opposite d' ≠ d := by
          intro he
          have hba : dirFromTo b a = some d :=
            he ▸ dirFromTo_symm hab
          exact han (dirFromTo_target_inj hba hd)
        rw [removeWall_gget_c hs hc hcn,
          removeBit_and_other (hle _ hc) hdd (opposite_isDir hdd')
            (fun he => hone he.symm)]
        constructor
        · intro hx; exact Or.inl hx
        · rintro (hx | ⟨rfl, -⟩ | ⟨he, -⟩)
          · exact hx
          · exact absurd rfl hac
          · exact absurd he han
      by_cases hbn : b = n
      · subst hbn
        have hone : opposite d' ≠ opposite d := by
          intro he
          have hde : d' = d := opposite_inj hdd' hdd he
          exact hac (dirFromTo_source_inj hab (hde ▸ hd))
        rw [removeWall_gget_n hs hn hcn,
          removeBit_and_other (hle _ hn) (opposite_isDir hdd) (opposite_isDir hdd')
            (fun he => hone he.symm), hfresh]
        constructor
        · intro ⟨_, _, hz⟩
          exact absurd hz (all_walls_and_dir (opposite_isDir hdd'))
        · rintro (⟨_, _, hz⟩ | ⟨rfl, -⟩ | ⟨he, -⟩)
          · exact absurd hz (all_walls_and_dir (opposite_isDir hdd'))
          · exact absurd rfl hac
          · exact absurd he han
      · rw [removeWall_gget_other hbc hbn]
        constructor
        · intro hx; exact Or.inl hx
        · rintro (hx | ⟨rfl, -⟩ | ⟨rfl, -⟩)
          · exact hx
          · exact absurd rfl hac
          · exact absurd rfl han

/-! ### Acyclicity machinery -/

theorem exists_last_edge {V : Type} {G : SimpleGraph V} :
    ∀ {a b : V} (p : G.Walk a b), 0 < p.length →
      ∃ y, G.Adj y b ∧ s(y, b) ∈ p.edges
  | _, _, SimpleGraph.Walk.nil, hp => absurd hp (by simp)
  | _, _, SimpleGraph.Walk.cons hadj SimpleGraph.Walk.nil, _ =>
    ⟨_, hadj, by simp⟩
  | _, _, SimpleGraph.Walk.cons hadj (SimpleGraph.Walk.cons hadj2 q), _ => by
    obtain ⟨y, hy, hm⟩ :=
      exists_last_edge (SimpleGraph.Walk.cons hadj2 q) (by simp)
    exact ⟨y, hy, by
      rw [SimpleGraph.Walk.edges_cons]
      exact List.mem_cons_of_mem _ hm⟩

/-- Adding a single edge from `c` to a vertex `n` isolated in `G` preserves
acyclicity. -/
theorem isAcyclic_add_isolated_edge {V : Type} [DecidableEq V]
    {G G' : SimpleGraph V} {c n : V}
    (hcn : c ≠ n) (hiso : ∀ x, ¬ G.Adj n x)
    (hchar : ∀ a b, G'.Adj a b ↔ (G.Adj a b ∨ (a = c ∧ b = n) ∨ (a = n ∧ b = c)))
    (hacy : G.IsAcyclic) : G'.IsAcyclic := by
  intro v walk hw
  by_cases hns : n ∈ walk.support
  · have hw2 : (walk.rotate hns).IsCycle := hw.rotate hns
    revert hw2
    cases hrot : walk.rotate hns with
    | nil => intro hw2; exact hw2.ne_nil rfl
    | cons hadj p =>
      intro hw2
      -- the first edge out of `n` must go to `c`
      rcases (hchar _ _).1 hadj with hG | ⟨hnc', _⟩ | ⟨_, hxc⟩
      · exact absurd hG (hiso _)
      · exact absurd hnc'.symm hcn
      have hxc' := hxc.symm
      subst hxc'
      -- the last edge into `n` must come from `c`
      have hplen : 0 < p.length := by
        have h3 := hw2.three_le_length
        rw [SimpleGraph.Walk.length_cons] at h3
        omega
      obtain ⟨y, hy, hm⟩ := exists_last_edge p hplen
      have hyc : y = c := by
        rcases (hchar _ _).1 hy with hG | ⟨hyc', _⟩ | ⟨_, hnc'⟩
        · exact absurd hG.symm (hiso _)
        · exact hyc'
        · exact absurd hnc'.symm hcn
      subst hyc
      have hnodup : (SimpleGraph.Walk.cons hadj p).edges.Nodup :=
        hw2.toIsCircuit.toIsTrail.edges_nodup
      rw [SimpleGraph.Walk.edges_cons, List.nodup_cons] at hnodup
      exact hnodup.1 (by rwa [Sym2.eq_swap])
  · have hsub : ∀ e ∈ walk.edges, e ∈ G.edgeSet := by
      intro e he
      induction e using Sym2.ind with
      | _ a b =>
        have hadj := walk.adj_of_mem_edges he
        rcases (hchar _ _).1 hadj with hG | ⟨_, rfl⟩ | ⟨rfl, _⟩
        · exact hG
        · exact absurd (walk.snd_mem_support_of_mem_edges he) hns
        · exact absurd (walk.fst_mem_support_of_mem_edges he) hns
    exact hacy (walk.transfer G hsub) (hw.transfer hsub)

theorem isAcyclic_of_no_adj {V : Type} {G : SimpleGraph V}
    (h : ∀ a b, ¬ G.Adj a b) : G.IsAcyclic := by
  intro v walk hw
  cases walk with
  | nil => exact hw.ne_nil rfl
  | cons hadj p => exact h _ _ hadj

theorem coordGraph_initGrid_no_adj (w h : Nat) :
    ∀ a b, ¬ (coordGraph w h (initGrid w h)).Adj a b := by
  intro a b hadj
  obtain ⟨⟨ha, hb⟩, hopen⟩ := hadj
  unfold openAdjB at hopen
  cases hd : dirFromTo a b with
  | none => rw [hd] at hopen; exact Bool.noConfusion hopen
  | some d =>
    rw [hd] at hopen
    simp only [Bool.and_eq_true, beq_iff_eq] at hopen
    rw [gget_initGrid ha] at hopen
    exact all_walls_and_dir (dirFromTo_isDir hd) hopen.1

/-! ### History replay -/

/-- Apply one recorded update `((x, y), v)`: write `v` at `(x, y)`. -/
def applyUpdate (g : Grid) (u : Update) : Grid := gset g u.1 u.2

/-- Apply one history step (its two updates, in order). -/
def applyStep (g : Grid) (st : Step) : Grid := applyUpdate (applyUpdate g st.1) st.2

/-- Replay a full history onto a grid. -/
def replayG (g : Grid) (hist : List Step) : Grid := hist.foldl applyStep g

theorem replayG_append (g : Grid) (h1 h2 : List Step) :
    replayG g (h1 ++ h2) = replayG (replayG g h1) h2 := by
  unfold replayG
  simp [List.foldl_append]

/-- The carved cells: visited cells that are not pattern cells. -/
def carvedCells (pc visited : List Cell) : List Cell :=
  visited.filter (fun c => decide (c ∉ pc))

/-! ### Pattern-embedding lemmas -/

theorem embed42_fail {w h : Nat} (hlt : w < 9 ∨ h < 7) :
    embed42 w h = ([], true) := by
  unfold embed42
  rw [if_pos (by omega)]

theorem embed42_fit {w h : Nat} (hw : 9 ≤ w) (hh : 7 ≤ h) :
    embed42 w h =
      (pat4.map (fun p => ((w - 7) / 2 + p.1, (h - 5) / 2 + p.2)) ++
       pat2.map (fun p => ((w - 7) / 2 + p.1 + 4, (h - 5) / 2 + p.2)), false) := by
  unfold embed42
  rw [if_neg (by omega)]

theorem pat4_bounds : ∀ p ∈ pat4, p.1 ≤ 2 ∧ p.2 ≤ 4 := by decide

theorem pat2_bounds : ∀ p ∈ pat2, p.1 ≤ 2 ∧ p.2 ≤ 4 := by decide

theorem embed42_mem_bounds {w h : Nat} {c : Cell} (hc : c ∈ (embed42 w h).1) :
    (w - 7) / 2 ≤ c.1 ∧ c.1 ≤ (w - 7) / 2 + 6 ∧
    (h - 5) / 2 ≤ c.2 ∧ c.2 ≤ (h - 5) / 2 + 4 := by
  by_cases hlt : w < 9 ∨ h < 7
  · rw [embed42_fail hlt] at hc
    exact absurd hc (List.not_mem_nil c)
  · rw [embed42_fit (by omega) (by omega)] at hc
    rcases List.mem_append.1 hc with hm | hm <;>
      obtain ⟨p, hp, rfl⟩ := List.mem_map.1 hm
    · have := pat4_bounds p hp
      exact ⟨by omega, by omega, by omega, by omega⟩
    · have := pat2_bounds p hp
      exact ⟨by omega, by omega, by omega, by omega⟩

theorem embed42_mem_range {w h : Nat} {c : Cell} (hc : c ∈ (embed42 w h).1) :
    inB w h c ∧ 1 ≤ c.1 ∧ 1 ≤ c.2 := by
  by_cases hlt : w < 9 ∨ h < 7
  · rw [embed42_fail hlt] at hc
    exact absurd hc (List.not_mem_nil c)
  · have hb := embed42_mem_bounds hc
    exact ⟨⟨by omega, by omega⟩, by omega, by omega⟩

theorem embed42_not_origin {w h : Nat} {c : Cell} (hc : c ∈ (embed42 w h).1) :
    c ≠ (0, 0) := by
  intro he
  have := (embed42_mem_range hc).2.1
  rw [he] at this
  omega

theorem pat4_nodup : pat4.Nodup := by decide

theorem pat2_nodup : pat2.Nodup := by decide

theorem embed42_nodup (w h : Nat) : (embed42 w h).1.Nodup := by
  by_cases hlt : w < 9 ∨ h < 7
  · rw [embed42_fail hlt]; exact List.nodup_nil
  · rw [embed42_fit (by omega) (by omega)]
    have hinj1 : Function.Injective
        (fun p : Cell => ((w - 7) / 2 + p.1, (h - 5) / 2 + p.2)) := by
      intro p q he
      simp only [Prod.mk.injEq] at he
      exact Prod.ext (by omega) (by omega)
    have hinj2 : Function.Injective
        (fun p : Cell => ((w - 7) / 2 + p.1 + 4, (h - 5) / 2 + p.2)) := by
      intro p q he
      simp only [Prod.mk.injEq] at he
      exact Prod.ext (by omega) (by omega)
    refine List.Nodup.append (pat4_nodup.map hinj1) (pat2_nodup.map hinj2) ?_
    intro a ha hb
    obtain ⟨p, hp, rfl⟩ := List.mem_map.1 ha
    obtain ⟨q, hq, he⟩ := List.mem_map.1 hb
    have h1 := (pat4_bounds p hp).1
    have h2 := (pat2_bounds q hq).1
    have := congrArg Prod.fst he
    simp only at this
    omega

/-! ### Neighbor-selection lemmas -/

theorem choiceD_mem {α : Type} (g : RNG) (i : Nat) {l : List α} (hl : l ≠ [])
    (dflt : α) : choiceD g i l dflt ∈ l := by
  unfold choiceD
  have hlen : 0 < l.length := List.length_pos.2 hl
  have hidx : g i % l.length < l.length := Nat.mod_lt _ hlen
  rw [List.getD_eq_getElem?_getD, List.getElem?_eq_getElem hidx]
  exact List.getElem_mem hidx

theorem mem_getUnvisitedNeighbors {w h x y : Nat} {visited : List Cell}
    {t : Nat × Nat × Nat} (hx : x < w) (hy : y < h)
    (ht : t ∈ getUnvisitedNeighbors w h x y visited) :
    dirFromTo (x, y) (t.1, t.2.1) = some t.2.2 ∧ inB w h (t.1, t.2.1) ∧
      (t.1, t.2.1) ∉ visited := by
  unfold getUnvisitedNeighbors at ht
  simp only [List.mem_append] at ht
  rcases ht with ((ht | ht) | ht) | ht
  · -- NORTH branch
    split_ifs at ht with hcond
    · rcases List.mem_singleton.1 ht with rfl
      obtain ⟨hg, hnv⟩ := hcond
      dsimp only
      refine ⟨?_, ⟨hx, by omega⟩, hnv⟩
      rw [dirFromTo_some_iff]
      left
      exact ⟨rfl, rfl, by omega⟩
    · exact absurd ht (List.not_mem_nil t)
  · -- SOUTH branch
    split_ifs at ht with hcond
    · rcases List.mem_singleton.1 ht with rfl
      obtain ⟨hg, hnv⟩ := hcond
      dsimp only
      refine ⟨?_, ⟨hx, by omega⟩, hnv⟩
      rw [dirFromTo_some_iff]
      right; left
      exact ⟨rfl, rfl, by omega⟩
    · exact absurd ht (List.not_mem_nil t)
  · -- EAST branch
    split_ifs at ht with hcond
    · rcases List.mem_singleton.1 ht with rfl
      obtain ⟨hg, hnv⟩ := hcond
      dsimp only
      refine ⟨?_, ⟨by omega, hy⟩, hnv⟩
      rw [dirFromTo_some_iff]
      right; right; left
      exact ⟨rfl, rfl, by omega⟩
    · exact absurd ht (List.not_mem_nil t)
  · -- WEST branch
    split_ifs at ht with hcond
    · rcases List.mem_singleton.1 ht with rfl
      obtain ⟨hg, hnv⟩ := hcond
      dsimp only
      refine ⟨?_, ⟨by omega, hy⟩, hnv⟩
      rw [dirFromTo_some_iff]
      right; right; right
      exact ⟨rfl, rfl, by omega⟩
    · exact absurd ht (List.not_mem_nil t)

theorem nodup_length_le {w h : Nat} {l : List Cell} (hnd : l.Nodup)
    (hr : ∀ c ∈ l, inB w h c) : l.length ≤ w * h := by
  let f : {c : Cell // c ∈ l} → Fin w × Fin h := fun cp =>
    (⟨cp.1.1, (hr cp.1 cp.2).1⟩, ⟨cp.1.2, (hr cp.1 cp.2).2⟩)
  have hinj : Function.Injective f := by
    intro a b he
    simp only [f, Prod.mk.injEq, Fin.mk.injEq] at he
    exact Subtype.ext (Prod.ext he.1 he.2)
  have hnd' : (l.attach.map f).Nodup := (List.nodup_attach.2 hnd).map hinj
  have hlen : (l.attach.map f).length = l.length := by
    rw [List.length_map, List.length_attach]
  have := hnd'.length_le_card
  rw [hlen] at this
  simpa [Fintype.card_prod] using this

/-! ### The carving-loop invariant -/

theorem coordGraph_no_adj_of_fresh {w h : Nat} {grid : Grid} {n : Cell}
    (hfresh : gget grid n = ALL_WALLS) : ∀ x, ¬ (coordGraph w h grid).Adj n x := by
  intro x hadj
  obtain ⟨-, hopen⟩ := hadj
  unfold openAdjB at hopen
  cases hd : dirFromTo n x with
  | none => rw [hd] at hopen; exact Bool.noConfusion hopen
  | some d =>
    rw [hd] at hopen
    simp only [Bool.and_eq_true, beq_iff_eq] at hopen
    rw [hfresh] at hopen
    exact all_walls_and_dir (dirFromTo_isDir hd) hopen.1

theorem removeWall_replay_step {w h : Nat} {grid : Grid} {hist : List Step}
    {c n : Cell} {d : Nat} (hs : gridShape w h grid) (hc : inB w h c)
    (hn : inB w h n) (hcn : c ≠ n) (rec : Bool) :
    applyStep grid
        ((c, gget (removeWall grid hist c.1 c.2 n.1 n.2 d rec).1 c),
         (n, gget (removeWall grid hist c.1 c.2 n.1 n.2 d rec).1 n)) =
      (removeWall grid hist c.1 c.2 n.1 n.2 d rec).1 := by
  rw [removeWall_gget_c hs hc hcn, removeWall_gget_n hs hn hcn,
    removeWall_grid_def]
  unfold applyStep applyUpdate
  have hg1n : gget (gset grid c (removeBit (gget grid c) d)) n = gget grid n :=
    gget_gset_ne (fun he => hcn he.symm) _
  rw [hg1n]

/-- The invariant maintained by every iteration of the carving loop. -/
structure CInv (w h : Nat) (pc : List Cell) (s : CarveState) : Prop where
  shape : gridShape w h s.grid
  le15 : ∀ c, inB w h c → gget s.grid c ≤ 15
  pcVis : ∀ c ∈ pc, c ∈ s.visited
  nodup : s.visited.Nodup
  visRange : ∀ c ∈ s.visited, inB w h c
  stackVis : ∀ c ∈ s.stack, c ∈ s.visited
  stackNpc : ∀ c ∈ s.stack, c ∉ pc
  histLen : s.history.length + 1 = (carvedCells pc s.visited).length
  fresh : ∀ c, inB w h c → c ∉ s.visited → gget s.grid c = ALL_WALLS
  pat15 : ∀ c ∈ pc, gget s.grid c = ALL_WALLS
  wsym : wallSym w h s.grid
  reach : ∀ c ∈ s.visited, c ∉ pc → (coordGraph w h s.grid).Reachable (0, 0) c
  acyc : (coordGraph w h s.grid).IsAcyclic
  histPc : ∀ st ∈ s.history, st.1.1 ∉ pc ∧ st.2.1 ∉ pc
  replay : replayG (initGrid w h) s.history = s.grid
  originVis : (0, 0) ∈ s.visited

theorem carveStep_inv {w h : Nat} {pc : List Cell} (g : RNG) {s : CarveState}
    (hinv : CInv w h pc s) : CInv w h pc (carveStep w h g s) := by
  obtain ⟨grid, hist, stack, visited, idx⟩ := s
  cases stack with
  | nil => exact hinv
  | cons c0 rest =>
    obtain ⟨cx, cy⟩ := c0
    by_cases hns : getUnvisitedNeighbors w h cx cy visited = []
    · -- pop branch
      show CInv w h pc (if _ = ([] : List (Nat × Nat × Nat)) then _ else _)
      rw [if_pos hns]
      exact {
        shape := hinv.shape, le15 := hinv.le15, pcVis := hinv.pcVis
        nodup := hinv.nodup, visRange := hinv.visRange
        stackVis := fun c hc => hinv.stackVis c (List.mem_cons_of_mem _ hc)
        stackNpc := fun c hc => hinv.stackNpc c (List.mem_cons_of_mem _ hc)
        histLen := hinv.histLen, fresh := hinv.fresh, pat15 := hinv.pat15
        wsym := hinv.wsym, reach := hinv.reach, acyc := hinv.acyc
        histPc := hinv.histPc, replay := hinv.replay
        originVis := hinv.originVis }
    · -- push branch
      show CInv w h pc (if _ = ([] : List (Nat × Nat × Nat)) then _ else _)
      rw [if_neg hns]
      have hcVis : (cx, cy) ∈ visited := hinv.stackVis _ (List.mem_cons_self _ _)
      have hcNpc : (cx, cy) ∉ pc := hinv.stackNpc _ (List.mem_cons_self _ _)
      have hcIn : inB w h (cx, cy) := hinv.visRange _ hcVis
      set t := choiceD g idx (getUnvisitedNeighbors w h cx cy visited) (0, 0, 0)
        with ht
      have htm : t ∈ getUnvisitedNeighbors w h cx cy visited :=
        choiceD_mem g idx hns (0, 0, 0)
      obtain ⟨hd, hnIn, hnVis⟩ :=
        mem_getUnvisitedNeighbors hcIn.1 hcIn.2 htm
      have hnNpc : (t.1, t.2.1) ∉ pc := fun hp => hnVis (hinv.pcVis _ hp)
      have hcn : (cx, cy) ≠ (t.1, t.2.1) := dirFromTo_ne hd
      have hfreshn : gget grid (t.1, t.2.1) = ALL_WALLS :=
        hinv.fresh _ hnIn hnVis
      have hchar : ∀ a b : Cell,
          (coordGraph w h (removeWall grid hist cx cy t.1 t.2.1 t.2.2 true).1).Adj a b ↔
            ((coordGraph w h grid).Adj a b ∨
             (a = (cx, cy) ∧ b = (t.1, t.2.1)) ∨ (a = (t.1, t.2.1) ∧ b = (cx, cy))) :=
        fun a b =>
          coordGraph_removeWall_adj (c := ((cx, cy) : Cell)) (n := ((t.1, t.2.1) : Cell))
            hinv.shape hcIn hnIn hd hfreshn hinv.le15 true a b
      have hle : coordGraph w h grid ≤
          coordGraph w h (removeWall grid hist cx cy t.1 t.2.1 t.2.2 true).1 :=
        fun a b hab => (hchar a b).2 (Or.inl hab)
      have hshape2 : gridShape w h (removeWall grid hist cx cy t.1 t.2.1 t.2.2 true).1 :=
        removeWall_shape (c := ((cx, cy) : Cell)) (n := ((t.1, t.2.1) : Cell))
          (d := t.2.2) hinv.shape true
      have hle15b : ∀ c', inB w h c' →
          gget (removeWall grid hist cx cy t.1 t.2.1 t.2.2 true).1 c' ≤ 15 :=
        removeWall_le15 (c := ((cx, cy) : Cell)) (n := ((t.1, t.2.1) : Cell))
          (d := t.2.2) hinv.shape hcIn hnIn hcn hinv.le15 true
      refine {
        shape := hshape2
        le15 := hle15b
        pcVis := fun c hc => List.mem_cons_of_mem _ (hinv.pcVis c hc)
        nodup := List.nodup_cons.2 ⟨hnVis, hinv.nodup⟩
        visRange := ?_, stackVis := ?_, stackNpc := ?_, histLen := ?_
        fresh := ?_, pat15 := ?_, wsym := ?_, reach := ?_, acyc := ?_
        histPc := ?_, replay := ?_
        originVis := List.mem_cons_of_mem _ hinv.originVis }
      · intro c hc
        rcases List.mem_cons.1 hc with rfl | hc
        · exact hnIn
        · exact hinv.visRange c hc
      · intro c hc
        rcases List.mem_cons.1 hc with rfl | hc
        · exact List.mem_cons_self _ _
        · exact List.mem_cons_of_mem _ (hinv.stackVis c hc)
      · intro c hc
        rcases List.mem_cons.1 hc with rfl | hc
        · exact hnNpc
        · exact hinv.stackNpc c hc
      · show (removeWall grid hist cx cy t.1 t.2.1 t.2.2 true).2.length + 1 = _
        rw [removeWall_hist_record grid hist (cx, cy) (t.1, t.2.1) t.2.2,
          List.length_append]
        have hcarved : carvedCells pc ((t.1, t.2.1) :: visited) =
            (t.1, t.2.1) :: carvedCells pc visited := by
          unfold carvedCells
          rw [List.filter_cons_of_pos (by simpa using hnNpc)]
        rw [hcarved]
        have hl : hist.length + 1 = (carvedCells pc visited).length := hinv.histLen
        simp only [List.length_cons, List.length_nil]
        omega
      · intro c hc hcv
        have hc1 : c ≠ (t.1, t.2.1) := fun he => hcv (he ▸ List.mem_cons_self _ _)
        have hc2 : c ∉ visited := fun hm => hcv (List.mem_cons_of_mem _ hm)
        have hc3 : c ≠ (cx, cy) := fun he => hc2 (he ▸ hcVis)
        show gget (removeWall grid hist cx cy t.1 t.2.1 t.2.2 true).1 c = _
        rw [removeWall_gget_other (c := (cx, cy)) (n := (t.1, t.2.1)) hc3 hc1]
        exact hinv.fresh c hc hc2
      · intro c hc
        have hc1 : c ≠ (t.1, t.2.1) := fun he => hnNpc (he ▸ hc)
        have hc3 : c ≠ (cx, cy) := fun he => hcNpc (he ▸ hc)
        show gget (removeWall grid hist cx cy t.1 t.2.1 t.2.2 true).1 c = _
        rw [removeWall_gget_other (c := (cx, cy)) (n := (t.1, t.2.1)) hc3 hc1]
        exact hinv.pat15 c hc
      · have hws : wallSym w h (removeWall grid hist cx cy t.1 t.2.1 t.2.2 true).1 :=
          wallSym_removeWall (c := ((cx, cy) : Cell)) (n := ((t.1, t.2.1) : Cell))
            hinv.shape hcIn hnIn hd hinv.le15 hinv.wsym true
        exact hws
      · intro c hc hcp
        rcases List.mem_cons.1 hc with rfl | hc
        · exact ((hinv.reach _ hcVis hcNpc).mono hle).trans
            (((hchar (cx, cy) (t.1, t.2.1)).2 (Or.inr (Or.inl ⟨rfl, rfl⟩))).reachable)
        · exact (hinv.reach c hc hcp).mono hle
      · exact isAcyclic_add_isolated_edge hcn
          (coordGraph_no_adj_of_fresh hfreshn) hchar hinv.acyc
      · intro st hst
        have hst' : st ∈ (removeWall grid hist cx cy t.1 t.2.1 t.2.2 true).2 := hst
        rw [removeWall_hist_record grid hist (cx, cy) (t.1, t.2.1) t.2.2] at hst'
        rcases List.mem_append.1 hst' with hst | hst
        · exact hinv.histPc st hst
        · rcases List.mem_singleton.1 hst with rfl
          exact ⟨hcNpc, hnNpc⟩
      · show replayG (initGrid w h)
            (removeWall grid hist cx cy t.1 t.2.1 t.2.2 true).2 = _
        rw [removeWall_hist_record grid hist (cx, cy) (t.1, t.2.1) t.2.2,
          replayG_append]
        show applyStep (replayG (initGrid w h) hist) _ = _
        rw [hinv.replay]
        exact removeWall_replay_step hinv.shape hcIn hnIn hcn true

theorem carveLoop_inv {w h : Nat} {pc : List Cell} (g : RNG) (fuel : Nat)
    {s : CarveState} (hinv : CInv w h pc s) :
    CInv w h pc (carveLoop w h g fuel s) := by
  induction fuel generalizing s with
  | zero => exact hinv
  | succ n ih =>
    unfold carveLoop
    by_cases hst : s.stack = []
    · rw [if_pos hst]; exact hinv
    · rw [if_neg hst]; exact ih (carveStep_inv g hinv)

/-! ### The initial state satisfies the invariant; the loop terminates -/

theorem origin_not_pattern {w h : Nat} : (0, 0) ∉ (embed42 w h).1 :=
  fun hm => embed42_not_origin hm rfl

theorem CInv_initState {w h : Nat} (hw : 1 ≤ w) (hh : 1 ≤ h) :
    CInv w h (embed42 w h).1 (initState w h) := by
  refine {
    shape := initGrid_shape w h
    le15 := fun c hc => by
      show gget (initGrid w h) c ≤ 15
      rw [gget_initGrid hc]
      exact Nat.le_refl _
    pcVis := fun c hc => List.mem_cons_of_mem _ hc
    nodup := List.nodup_cons.2 ⟨origin_not_pattern, embed42_nodup w h⟩
    visRange := ?_
    stackVis := ?_
    stackNpc := ?_
    histLen := ?_
    fresh := fun c hc _ => gget_initGrid hc
    pat15 := fun c hc => gget_initGrid (embed42_mem_range hc).1
    wsym := wallSym_initGrid w h
    reach := ?_
    acyc := isAcyclic_of_no_adj (coordGraph_initGrid_no_adj w h)
    histPc := fun st hst => absurd hst (List.not_mem_nil st)
    replay := rfl
    originVis := List.mem_cons_self _ _ }
  · intro c hc
    rcases List.mem_cons.1 hc with rfl | hc
    · exact ⟨hw, hh⟩
    · exact (embed42_mem_range hc).1
  · intro c hc
    rcases List.mem_singleton.1 hc with rfl
    exact List.mem_cons_self _ _
  · intro c hc
    rcases List.mem_singleton.1 hc with rfl
    exact origin_not_pattern
  · show 0 + 1 = (carvedCells (embed42 w h).1 ((0, 0) :: (embed42 w h).1)).length
    unfold carvedCells
    rw [List.filter_cons_of_pos (by simpa using origin_not_pattern),
      List.filter_eq_nil_iff.2 (by intro a ha; simpa using ha)]
    rfl
  · intro c hc hcp
    rcases List.mem_cons.1 hc with rfl | hc
    · exact SimpleGraph.Reachable.refl _
    · exact absurd hc hcp

theorem carveStep_measure {w h : Nat} {pc : List Cell} (g : RNG) {s : CarveState}
    (hinv : CInv w h pc s) (hne : s.stack ≠ []) :
    (carveStep w h g s).stack.length +
        2 * (w * h - (carveStep w h g s).visited.length) + 1 ≤
      s.stack.length + 2 * (w * h - s.visited.length) := by
  obtain ⟨grid, hist, stack, visited, idx⟩ := s
  cases stack with
  | nil => exact absurd rfl hne
  | cons c0 rest =>
    obtain ⟨cx, cy⟩ := c0
    simp only [carveStep]
    by_cases hns : getUnvisitedNeighbors w h cx cy visited = []
    · rw [if_pos hns]
      dsimp only
      simp only [List.length_cons]
      omega
    · rw [if_neg hns]
      dsimp only
      have hcVis : (cx, cy) ∈ visited := hinv.stackVis _ (List.mem_cons_self _ _)
      have hcIn : inB w h (cx, cy) := hinv.visRange _ hcVis
      set t := choiceD g idx (getUnvisitedNeighbors w h cx cy visited) (0, 0, 0)
        with ht
      have htm : t ∈ getUnvisitedNeighbors w h cx cy visited :=
        choiceD_mem g idx hns (0, 0, 0)
      obtain ⟨hd, hnIn, hnVis⟩ := mem_getUnvisitedNeighbors hcIn.1 hcIn.2 htm
      have hbound : ((t.1, t.2.1) :: visited).length ≤ w * h := by
        refine nodup_length_le (List.nodup_cons.2 ⟨hnVis, hinv.nodup⟩) ?_
        intro c hc
        rcases List.mem_cons.1 hc with rfl | hc
        · exact hnIn
        · exact hinv.visRange c hc
      simp only [List.length_cons] at hbound ⊢
      omega

theorem carveLoop_empties {w h : Nat} {pc : List Cell} (g : RNG) (fuel : Nat)
    {s : CarveState} (hinv : CInv w h pc s)
    (hfuel : s.stack.length + 2 * (w * h - s.visited.length) ≤ fuel) :
    (carveLoop w h g fuel s).stack = [] := by
  induction fuel generalizing s with
  | zero =>
    have : s.stack.length = 0 := by omega
    exact List.length_eq_zero.1 this
  | succ n ih =>
    unfold carveLoop
    by_cases hst : s.stack = []
    · rw [if_pos hst]; exact hst
    · rw [if_neg hst]
      exact ih (carveStep_inv g hinv)
        (by have := carveStep_measure g hinv hst; omega)

theorem carveResult_inv {w h : Nat} (g : RNG) (hw : 1 ≤ w) (hh : 1 ≤ h) :
    CInv w h (embed42 w h).1 (carveResult w h g) :=
  carveLoop_inv g _ (CInv_initState hw hh)

theorem carveResult_stack_empty {w h : Nat} (g : RNG) (hw : 1 ≤ w) (hh : 1 ≤ h) :
    (carveResult w h g).stack = [] := by
  refine carveLoop_empties g _ (CInv_initState hw hh) ?_
  show [(0, 0)].length + 2 * (w * h - ((0, 0) :: (embed42 w h).1).length) ≤
    2 * w * h + 1
  simp only [List.length_cons, List.length_nil]
  have hmul : 2 * w * h = 2 * (w * h) := Nat.mul_assoc 2 w h
  omega

/-! ### The carved graph is a spanning tree -/

theorem mem_carvedCells {pc visited : List Cell} {c : Cell} :
    c ∈ carvedCells pc visited ↔ c ∈ visited ∧ c ∉ pc := by
  unfold carvedCells
  rw [List.mem_filter]
  simp

/-- Any endpoint of an open wall is a carved (visited, non-pattern) cell. -/
theorem adj_mem_carved {w h : Nat} {pc : List Cell} {s : CarveState}
    (hinv : CInv w h pc s) {a b : Cell}
    (hadj : (coordGraph w h s.grid).Adj a b) :
    a ∈ carvedCells pc s.visited := by
  rw [mem_carvedCells]
  by_contra hc
  have h15 : gget s.grid a = ALL_WALLS := by
    by_cases hv : a ∈ s.visited
    · have hp : a ∈ pc := by
        by_contra hp
        exact hc ⟨hv, hp⟩
      exact hinv.pat15 a hp
    · exact hinv.fresh a hadj.1.1 hv
  exact coordGraph_no_adj_of_fresh h15 b hadj

/-- The open-wall graph restricted to a list of cells. -/
def carvedGraph (w h : Nat) (grid : Grid) (cs : List Cell) :
    SimpleGraph {c : Cell // c ∈ cs} where
  Adj a b := (coordGraph w h grid).Adj a.1 b.1
  symm := fun _ _ hab => (coordGraph w h grid).symm hab
  loopless := fun a hab => (coordGraph w h grid).loopless a.1 hab

theorem lift_reachable {w h : Nat} {grid : Grid} {cs : List Cell}
    (hend : ∀ a b : Cell, (coordGraph w h grid).Adj a b → b ∈ cs) :
    ∀ {a b : Cell}, (coordGraph w h grid).Walk a b → ∀ ha : a ∈ cs, ∀ hb : b ∈ cs,
      (carvedGraph w h grid cs).Reachable ⟨a, ha⟩ ⟨b, hb⟩ := by
  intro a b p
  induction p with
  | nil =>
    intro ha hb
    exact SimpleGraph.Reachable.refl _
  | cons hadj q ih =>
    intro ha hb
    have hx := hend _ _ hadj
    exact (SimpleGraph.Adj.reachable
      (show (carvedGraph w h grid cs).Adj ⟨_, ha⟩ ⟨_, hx⟩ from hadj)).trans (ih hx hb)

theorem reachable_mem_carved {w h : Nat} {pc : List Cell} {s : CarveState}
    (hinv : CInv w h pc s) (hop : (0, 0) ∉ pc) {c : Cell}
    (hreach : (coordGraph w h s.grid).Reachable (0, 0) c) :
    c ∈ carvedCells pc s.visited := by
  obtain ⟨p⟩ := hreach
  cases p with
  | nil =>
    rw [mem_carvedCells]
    exact ⟨hinv.originVis, hop⟩
  | cons hadj q =>
    cases q with
    | nil => exact adj_mem_carved hinv ((coordGraph w h s.grid).symm hadj)
    | cons hadj2 q2 =>
      obtain ⟨y, hy, -⟩ :=
        exists_last_edge (SimpleGraph.Walk.cons hadj2 q2) (by simp)
      exact adj_mem_carved hinv ((coordGraph w h s.grid).symm hy)

theorem carved_iff_reachable {w h : Nat} {pc : List Cell} {s : CarveState}
    (hinv : CInv w h pc s) (hop : (0, 0) ∉ pc) (c : Cell) :
    c ∈ carvedCells pc s.visited ↔ (coordGraph w h s.grid).Reachable (0, 0) c := by
  constructor
  · intro hc
    rw [mem_carvedCells] at hc
    exact hinv.reach c hc.1 hc.2
  · exact reachable_mem_carved hinv hop

theorem origin_mem_carved {w h : Nat} {pc : List Cell} {s : CarveState}
    (hinv : CInv w h pc s) (hpc : pc = (embed42 w h).1) :
    (0, 0) ∈ carvedCells pc s.visited := by
  rw [mem_carvedCells]
  exact ⟨hinv.originVis, by rw [hpc]; exact origin_not_pattern⟩

theorem carvedGraph_connected {w h : Nat} {s : CarveState}
    (hinv : CInv w h (embed42 w h).1 s) :
    (carvedGraph w h s.grid (carvedCells (embed42 w h).1 s.visited)).Connected := by
  set pc := (embed42 w h).1 with hpc
  set cs := carvedCells pc s.visited with hcs
  have h0 : (0, 0) ∈ cs := origin_mem_carved hinv rfl
  have hend : ∀ a b : Cell, (coordGraph w h s.grid).Adj a b → b ∈ cs :=
    fun a b hadj => adj_mem_carved hinv ((coordGraph w h s.grid).symm hadj)
  have hlift : ∀ A : {c : Cell // c ∈ cs},
      (carvedGraph w h s.grid cs).Reachable ⟨(0, 0), h0⟩ A := by
    intro A
    have hA : A.1 ∈ cs := A.2
    have hAr : (coordGraph w h s.grid).Reachable (0, 0) A.1 := by
      rw [mem_carvedCells] at hA
      exact hinv.reach A.1 hA.1 hA.2
    obtain ⟨p⟩ := hAr
    exact (lift_reachable hend p h0 A.2).trans (SimpleGraph.Reachable.refl _)
  have hne : Nonempty {c : Cell // c ∈ cs} := ⟨⟨(0, 0), h0⟩⟩
  exact SimpleGraph.Connected.mk (fun A B => (hlift A).symm.trans (hlift B))

theorem carvedGraph_acyclic {w h : Nat} {pc : List Cell} {s : CarveState}
    (hinv : CInv w h pc s) :
    (carvedGraph w h s.grid (carvedCells pc s.visited)).IsAcyclic := by
  intro v walk hcyc
  let F : carvedGraph w h s.grid (carvedCells pc s.visited) →g
      coordGraph w h s.grid := ⟨Subtype.val, fun {a b} hab => hab⟩
  have hinj : Function.Injective F.toFun := Subtype.val_injective
  exact hinv.acyc (walk.map F) (hcyc.map hinj)

theorem carvedGraph_isTree {w h : Nat} {s : CarveState}
    (hinv : CInv w h (embed42 w h).1 s) :
    (carvedGraph w h s.grid (carvedCells (embed42 w h).1 s.visited)).IsTree :=
  ⟨carvedGraph_connected hinv, carvedGraph_acyclic hinv⟩

/-! ### The imperfection-pass invariant -/

/-- The state invariant preserved by `make_imperfect`. -/
structure IInv (w h : Nat) (pc : List Cell) (grid : Grid) (hist : List Step) : Prop where
  shape : gridShape w h grid
  le15 : ∀ c, inB w h c → gget grid c ≤ 15
  pat15 : ∀ c ∈ pc, gget grid c = ALL_WALLS
  wsym : wallSym w h grid
  histPc : ∀ st ∈ hist, st.1.1 ∉ pc ∧ st.2.1 ∉ pc
  replay : replayG (initGrid w h) hist = grid

theorem mem_validWalls {w h x y : Nat} {grid : Grid} {t : Nat × Nat × Nat}
    (hx : x < w) (hy : y < h) (ht : t ∈ validWalls w h grid x y) :
    dirFromTo (x, y) (t.1, t.2.1) = some t.2.2 ∧ inB w h (t.1, t.2.1) := by
  unfold validWalls at ht
  simp only [List.mem_append] at ht
  rcases ht with ((ht | ht) | ht) | ht
  · split_ifs at ht with hcond
    · rcases List.mem_singleton.1 ht with rfl
      obtain ⟨hg, -⟩ := hcond
      dsimp only
      refine ⟨?_, hx, by omega⟩
      rw [dirFromTo_some_iff]
      left
      exact ⟨rfl, rfl, by omega⟩
    · exact absurd ht (List.not_mem_nil t)
  · split_ifs at ht with hcond
    · rcases List.mem_singleton.1 ht with rfl
      obtain ⟨hg, -⟩ := hcond
      dsimp only
      refine ⟨?_, hx, by omega⟩
      rw [dirFromTo_some_iff]
      right; left
      exact ⟨rfl, rfl, by omega⟩
    · exact absurd ht (List.not_mem_nil t)
  · split_ifs at ht with hcond
    · rcases List.mem_singleton.1 ht with rfl
      obtain ⟨hg, -⟩ := hcond
      dsimp only
      refine ⟨?_, by omega, hy⟩
      rw [dirFromTo_some_iff]
      right; right; left
      exact ⟨rfl, rfl, by omega⟩
    · exact absurd ht (List.not_mem_nil t)
  · split_ifs at ht with hcond
    · rcases List.mem_singleton.1 ht with rfl
      obtain ⟨hg, -⟩ := hcond
      dsimp only
      refine ⟨?_, by omega, hy⟩
      rw [dirFromTo_some_iff]
      right; right; right
      exact ⟨rfl, rfl, by omega⟩
    · exact absurd ht (List.not_mem_nil t)

theorem imperfectTry_spec {w h : Nat} {pc : List Cell} {grid : Grid}
    {hist : List Step} (g : RNG) (idx : Nat) (hw : 1 ≤ w) (hh : 1 ≤ h)
    (hinv : IInv w h pc grid hist) :
    IInv w h pc (imperfectTry w h g pc grid hist idx).1
        (imperfectTry w h g pc grid hist idx).2.1 ∧
      ((imperfectTry w h g pc grid hist idx).2.2.2 = true →
        (imperfectTry w h g pc grid hist idx).2.1.length = hist.length + 1) ∧
      ((imperfectTry w h g pc grid hist idx).2.2.2 = false →
        (imperfectTry w h g pc grid hist idx).1 = grid ∧
        (imperfectTry w h g pc grid hist idx).2.1 = hist) := by
  unfold imperfectTry
  set x := g idx % w with hxdef
  set y := g (idx + 1) % h with hydef
  have hx : x < w := Nat.mod_lt _ (by omega)
  have hy : y < h := Nat.mod_lt _ (by omega)
  by_cases hp1 : (x, y) ∈ pc
  · rw [if_pos hp1]
    exact ⟨hinv, fun hf => Bool.noConfusion hf, fun _ => ⟨rfl, rfl⟩⟩
  rw [if_neg hp1]
  by_cases hvw : validWalls w h grid x y = []
  · rw [if_pos hvw]
    exact ⟨hinv, fun hf => Bool.noConfusion hf, fun _ => ⟨rfl, rfl⟩⟩
  rw [if_neg hvw]
  set t := choiceD g (idx + 2) (validWalls w h grid x y) (0, 0, 0) with htdef
  have htm : t ∈ validWalls w h grid x y := choiceD_mem g (idx + 2) hvw (0, 0, 0)
  obtain ⟨hd, hnIn⟩ := mem_validWalls hx hy htm
  by_cases hp2 : (t.1, t.2.1) ∈ pc
  · rw [if_pos hp2]
    exact ⟨hinv, fun hf => Bool.noConfusion hf, fun _ => ⟨rfl, rfl⟩⟩
  rw [if_neg hp2]
  have hcn : (x, y) ≠ (t.1, t.2.1) := dirFromTo_ne hd
  have hcIn : inB w h (x, y) := ⟨hx, hy⟩
  have hgrid2 : gridShape w h (removeWall grid hist x y t.1 t.2.1 t.2.2 false).1 :=
    removeWall_shape (c := ((x, y) : Cell)) (n := ((t.1, t.2.1) : Cell))
      (d := t.2.2) hinv.shape false
  have hle15b : ∀ c', inB w h c' →
      gget (removeWall grid hist x y t.1 t.2.1 t.2.2 false).1 c' ≤ 15 :=
    removeWall_le15 (c := ((x, y) : Cell)) (n := ((t.1, t.2.1) : Cell))
      (d := t.2.2) hinv.shape hcIn hnIn hcn hinv.le15 false
  have hwsym2 : wallSym w h (removeWall grid hist x y t.1 t.2.1 t.2.2 false).1 :=
    wallSym_removeWall (c := ((x, y) : Cell)) (n := ((t.1, t.2.1) : Cell))
      hinv.shape hcIn hnIn hd hinv.le15 hinv.wsym false
  refine ⟨?_, fun _ => ?_, fun hf => Bool.noConfusion hf⟩
  · refine {
      shape := hgrid2
      le15 := hle15b
      pat15 := ?_
      wsym := hwsym2
      histPc := ?_
      replay := ?_ }
    · intro c hc
      have hc1 : c ≠ (t.1, t.2.1) := fun he => hp2 (he ▸ hc)
      have hc3 : c ≠ (x, y) := fun he => hp1 (he ▸ hc)
      show gget (removeWall grid hist x y t.1 t.2.1 t.2.2 false).1 c = _
      rw [removeWall_gget_other (c := ((x, y) : Cell)) (n := ((t.1, t.2.1) : Cell))
        hc3 hc1]
      exact hinv.pat15 c hc
    · intro st hst
      rcases List.mem_append.1 hst with hst | hst
      · exact hinv.histPc st hst
      · rcases List.mem_singleton.1 hst with rfl
        exact ⟨hp1, hp2⟩
    · show replayG (initGrid w h) (hist ++ [_]) = _
      rw [replayG_append]
      show applyStep (replayG (initGrid w h) hist) _ = _
      rw [hinv.replay]
      exact removeWall_replay_step hinv.shape hcIn hnIn hcn false
  · show (hist ++ [_]).length = _
    rw [List.length_append]
    rfl

theorem imperfectLoop_spec {w h : Nat} {pc : List Cell} (g : RNG)
    (hw : 1 ≤ w) (hh : 1 ≤ h) :
    ∀ (rem count target : Nat) (grid : Grid) (hist : List Step) (idx : Nat),
      IInv w h pc grid hist → count ≤ target →
      IInv w h pc (imperfectLoop w h g pc rem count target grid hist idx).1
          (imperfectLoop w h g pc rem count target grid hist idx).2.1 ∧
      (imperfectLoop w h g pc rem count target grid hist idx).2.1.length + count =
          hist.length + (imperfectLoop w h g pc rem count target grid hist idx).2.2.2.1 ∧
      count ≤ (imperfectLoop w h g pc rem count target grid hist idx).2.2.2.1 ∧
      (imperfectLoop w h g pc rem count target grid hist idx).2.2.2.1 ≤ target ∧
      ((imperfectLoop w h g pc rem count target grid hist idx).2.2.2.1 = target ∨
       (imperfectLoop w h g pc rem count target grid hist idx).2.2.2.2 = 0) := by
  intro rem
  induction rem with
  | zero =>
    intro count target grid hist idx hinv hc
    exact ⟨hinv, rfl, Nat.le_refl _, hc, Or.inr rfl⟩
  | succ n ih =>
    intro count target grid hist idx hinv hc
    simp only [imperfectLoop]
    by_cases hlt : count < target
    · rw [if_pos hlt]
      obtain ⟨hinv2, hlen1, hid⟩ := imperfectTry_spec g idx hw hh hinv
      cases hsucc : (imperfectTry w h g pc grid hist idx).2.2.2 with
      | true =>
        rw [if_pos rfl]
        obtain ⟨ha, hb, hc2, hd2, he⟩ :=
          ih (count + 1) target (imperfectTry w h g pc grid hist idx).1
            (imperfectTry w h g pc grid hist idx).2.1
            (imperfectTry w h g pc grid hist idx).2.2.1 hinv2 (by omega)
        have hlen := hlen1 hsucc
        exact ⟨ha, by omega, by omega, hd2, he⟩
      | false =>
        rw [if_neg Bool.false_ne_true]
        obtain ⟨hg2, hh2⟩ := hid hsucc
        obtain ⟨ha, hb, hc2, hd2, he⟩ :=
          ih count target (imperfectTry w h g pc grid hist idx).1
            (imperfectTry w h g pc grid hist idx).2.1
            (imperfectTry w h g pc grid hist idx).2.2.1 hinv2 hc
        have hlen : (imperfectTry w h g pc grid hist idx).2.1.length = hist.length := by
          rw [hh2]
        exact ⟨ha, by omega, hc2, hd2, he⟩
    · rw [if_neg hlt]
      refine ⟨hinv, rfl, Nat.le_refl _, hc, Or.inl ?_⟩
      show count = target
      omega

/-- Specification of `make_imperfect`: invariants preserved, the history grows
by exactly the number of removals, and the removal count hits the target
unless the 500-attempt budget ran out. -/
theorem makeImperfect_spec {w h : Nat} {pc : List Cell} {grid : Grid}
    {hist : List Step} (g : RNG) (idx : Nat) (hw : 1 ≤ w) (hh : 1 ≤ h)
    (hinv : IInv w h pc grid hist) :
    IInv w h pc (makeImperfect w h g pc grid hist idx).1
        (makeImperfect w h g pc grid hist idx).2.1 ∧
    (makeImperfect w h g pc grid hist idx).2.1.length =
        hist.length + (makeImperfect w h g pc grid hist idx).2.2.2.1 ∧
    (makeImperfect w h g pc grid hist idx).2.2.2.1 ≤ wallsToBreak w h ∧
    ((makeImperfect w h g pc grid hist idx).2.2.2.1 = wallsToBreak w h ∨
     (makeImperfect w h g pc grid hist idx).2.2.2.2 = 0) := by
  unfold makeImperfect
  obtain ⟨ha, hb, -, hd, he⟩ :=
    imperfectLoop_spec g hw hh 500 0 (wallsToBreak w h) grid hist idx hinv
      (Nat.zero_le _)
  exact ⟨ha, by omega, hd, he⟩

/-! ### Bridging to `generate` -/

theorem IInv_of_CInv {w h : Nat} {pc : List Cell} {s : CarveState}
    (hinv : CInv w h pc s) : IInv w h pc s.grid s.history :=
  ⟨hinv.shape, hinv.le15, hinv.pat15, hinv.wsym, hinv.histPc, hinv.replay⟩

theorem generate_perfect_def (w h : Nat) (g : RNG) :
    generate w h g true =
      { grid := (carveResult w h g).grid, history := (carveResult w h g).history,
        pattern := (embed42 w h).1, patternFailed := (embed42 w h).2,
        visited := (carveResult w h g).visited } := rfl

theorem generate_imperfect_def (w h : Nat) (g : RNG) :
    generate w h g false =
      { grid := (makeImperfect w h g (embed42 w h).1 (carveResult w h g).grid
          (carveResult w h g).history (carveResult w h g).idx).1,
        history := (makeImperfect w h g (embed42 w h).1 (carveResult w h g).grid
          (carveResult w h g).history (carveResult w h g).idx).2.1,
        pattern := (embed42 w h).1, patternFailed := (embed42 w h).2,
        visited := (carveResult w h g).visited } := rfl

theorem generate_pattern (w h : Nat) (g : RNG) (p : Bool) :
    (generate w h g p).pattern = (embed42 w h).1 := by
  cases p <;> rfl

theorem generate_patternFailed (w h : Nat) (g : RNG) (p : Bool) :
    (generate w h g p).patternFailed = (embed42 w h).2 := by
  cases p <;> rfl

theorem generate_visited (w h : Nat) (g : RNG) (p : Bool) :
    (generate w h g p).visited = (carveResult w h g).visited := by
  cases p <;> rfl

theorem generate_IInv {w h : Nat} (g : RNG) (perfect : Bool)
    (hw : 1 ≤ w) (hh : 1 ≤ h) :
    IInv w h (embed42 w h).1 (generate w h g perfect).grid
      (generate w h g perfect).history := by
  have hcarve := IInv_of_CInv (carveResult_inv g hw hh)
  cases perfect with
  | true => exact hcarve
  | false =>
    rw [generate_imperfect_def]
    exact (makeImperfect_spec g (carveResult w h g).idx hw hh hcarve).1

/-- Iterating further `make_imperfect` calls on a finished maze, modelling an
arbitrary API call sequence `generate; make_imperfect; ...; make_imperfect`. -/
def imperfectIter (w h : Nat) (g : RNG) (pc : List Cell) :
    Nat → Grid × List Step × Nat → Grid × List Step × Nat
  | 0, st => st
  | n + 1, st =>
    let r := makeImperfect w h g pc st.1 st.2.1 st.2.2
    imperfectIter w h g pc n (r.1, r.2.1, r.2.2.1)

theorem imperfectIter_IInv {w h : Nat} {pc : List Cell} (g : RNG)
    (hw : 1 ≤ w) (hh : 1 ≤ h) :
    ∀ (n : Nat) (st : Grid × List Step × Nat), IInv w h pc st.1 st.2.1 →
      IInv w h pc (imperfectIter w h g pc n st).1
        (imperfectIter w h g pc n st).2.1 := by
  intro n
  induction n with
  | zero => exact fun st hinv => hinv
  | succ m ih =>
    intro st hinv
    exact ih _ (makeImperfect_spec g st.2.2 hw hh hinv).1

/-! ### Claim theorems -/

/-- C1: for every width, height ≥ 3, after `generate(perfect=True)` the
open-wall connectivity graph over the visited non-pattern cells (exactly the
cells reachable from `(0,0)`) is a spanning tree: it is a tree, there is
exactly one path between any two such cells, it has no cycle, and exactly
(number of reachable cells − 1) walls were removed (history steps recorded). -/
theorem generate_perfect_spanning_tree (w h : Nat) (g : RNG)
    (hw : 3 ≤ w) (hh : 3 ≤ h) :
    (carvedGraph w h (generate w h g true).grid
        (carvedCells (generate w h g true).pattern (generate w h g true).visited)).IsTree ∧
    (∀ A B : {c : Cell // c ∈ carvedCells (generate w h g true).pattern
        (generate w h g true).visited},
      ∃! p : (carvedGraph w h (generate w h g true).grid
        (carvedCells (generate w h g true).pattern
          (generate w h g true).visited)).Walk A B, p.IsPath) ∧
    (carvedGraph w h (generate w h g true).grid
        (carvedCells (generate w h g true).pattern
          (generate w h g true).visited)).IsAcyclic ∧
    (generate w h g true).history.length + 1 =
      (carvedCells (generate w h g true).pattern (generate w h g true).visited).length ∧
    (∀ c : Cell, c ∈ carvedCells (generate w h g true).pattern
        (generate w h g true).visited ↔
      (coordGraph w h (generate w h g true).grid).Reachable (0, 0) c) := by
  have hinv := carveResult_inv (w := w) (h := h) g (by omega) (by omega)
  have htree : (carvedGraph w h (generate w h g true).grid
      (carvedCells (generate w h g true).pattern
        (generate w h g true).visited)).IsTree := carvedGraph_isTree hinv
  refine ⟨htree, ?_, htree.IsAcyclic, ?_, ?_⟩
  · exact (SimpleGraph.isTree_iff_existsUnique_path.1 htree).2
  · exact hinv.histLen
  · exact carved_iff_reachable hinv origin_not_pattern

theorem generate_perfect_spanning_tree_witness :
    3 ≤ 3 ∧
    ((carvedGraph 3 3 (generate 3 3 (fun n => n) true).grid
        (carvedCells (generate 3 3 (fun n => n) true).pattern
          (generate 3 3 (fun n => n) true).visited)).IsTree ∧
    (∀ A B : {c : Cell // c ∈ carvedCells (generate 3 3 (fun n => n) true).pattern
        (generate 3 3 (fun n => n) true).visited},
      ∃! p : (carvedGraph 3 3 (generate 3 3 (fun n => n) true).grid
        (carvedCells (generate 3 3 (fun n => n) true).pattern
          (generate 3 3 (fun n => n) true).visited)).Walk A B, p.IsPath) ∧
    (carvedGraph 3 3 (generate 3 3 (fun n => n) true).grid
        (carvedCells (generate 3 3 (fun n => n) true).pattern
          (generate 3 3 (fun n => n) true).visited)).IsAcyclic ∧
    (generate 3 3 (fun n => n) true).history.length + 1 =
      (carvedCells (generate 3 3 (fun n => n) true).pattern
        (generate 3 3 (fun n => n) true).visited).length ∧
    (∀ c : Cell, c ∈ carvedCells (generate 3 3 (fun n => n) true).pattern
        (generate 3 3 (fun n => n) true).visited ↔
      (coordGraph 3 3 (generate 3 3 (fun n => n) true).grid).Reachable (0, 0) c)) :=
  ⟨by decide, generate_perfect_spanning_tree 3 3 (fun n => n) (by decide) (by decide)⟩

/-- C3: `generate` is deterministic — equal seed, width, height and perfect
flag yield an identical grid and an identical history log. -/
theorem generate_deterministic (w1 h1 s1 w2 h2 s2 : Nat) (p1 p2 : Bool)
    (hw : w1 = w2) (hh : h1 = h2) (hs : s1 = s2) (hp : p1 = p2) :
    (generateSeeded w1 h1 s1 p1).grid = (generateSeeded w2 h2 s2 p2).grid ∧
    (generateSeeded w1 h1 s1 p1).history = (generateSeeded w2 h2 s2 p2).history := by
  subst hw; subst hh; subst hs; subst hp
  exact ⟨rfl, rfl⟩

theorem generate_deterministic_witness :
    (3 : Nat) = 3 ∧ (4 : Nat) = 4 ∧ (7 : Nat) = 7 ∧ true = true ∧
    ((generateSeeded 3 4 7 true).grid = (generateSeeded 3 4 7 true).grid ∧
     (generateSeeded 3 4 7 true).history = (generateSeeded 3 4 7 true).history) :=
  ⟨rfl, rfl, rfl, rfl, generate_deterministic 3 4 7 3 4 7 true true rfl rfl rfl rfl⟩

/-- C4: replaying every history step, in order, onto a freshly all-walled grid
of the same dimensions reproduces the final grid exactly (for perfect and
imperfect runs alike). -/
theorem history_replay_complete (w h : Nat) (g : RNG) (perfect : Bool)
    (hw : 3 ≤ w) (hh : 3 ≤ h) :
    replayG (initGrid w h) (generate w h g perfect).history =
      (generate w h g perfect).grid :=
  (generate_IInv g perfect (by omega) (by omega)).replay

theorem history_replay_complete_witness :
    3 ≤ 5 ∧ replayG (initGrid 5 5) (generate 5 5 (fun n => n * 3 + 1) false).history =
      (generate 5 5 (fun n => n * 3 + 1) false).grid :=
  ⟨by decide, history_replay_complete 5 5 (fun n => n * 3 + 1) false
    (by decide) (by decide)⟩

/-- C5: pattern cells are never mutated: after `generate` (perfect or not),
every pattern cell still holds `ALL_WALLS`, no history step touches a pattern
cell, and no pattern cell is ever a carved (visited non-pattern) cell. -/
theorem pattern_cells_untouched (w h : Nat) (g : RNG) (perfect : Bool)
    (hw : 3 ≤ w) (hh : 3 ≤ h) :
    (∀ c ∈ (generate w h g perfect).pattern,
      gget (generate w h g perfect).grid c = ALL_WALLS) ∧
    (∀ st ∈ (generate w h g perfect).history,
      st.1.1 ∉ (generate w h g perfect).pattern ∧
      st.2.1 ∉ (generate w h g perfect).pattern) ∧
    (∀ c ∈ (generate w h g perfect).pattern,
      c ∉ carvedCells (generate w h g perfect).pattern
        (generate w h g perfect).visited) := by
  have hinv := generate_IInv g perfect (w := w) (h := h) (by omega) (by omega)
  rw [generate_pattern]
  refine ⟨hinv.pat15, hinv.histPc, ?_⟩
  intro c hc hmem
  rw [mem_carvedCells] at hmem
  exact hmem.2 hc

theorem pattern_cells_untouched_witness :
    3 ≤ 9 ∧
    ((∀ c ∈ (generate 9 7 (fun n => n * 5 + 2) false).pattern,
      gget (generate 9 7 (fun n => n * 5 + 2) false).grid c = ALL_WALLS) ∧
    (∀ st ∈ (generate 9 7 (fun n => n * 5 + 2) false).history,
      st.1.1 ∉ (generate 9 7 (fun n => n * 5 + 2) false).pattern ∧
      st.2.1 ∉ (generate 9 7 (fun n => n * 5 + 2) false).pattern) ∧
    (∀ c ∈ (generate 9 7 (fun n => n * 5 + 2) false).pattern,
      c ∉ carvedCells (generate 9 7 (fun n => n * 5 + 2) false).pattern
        (generate 9 7 (fun n => n * 5 + 2) false).visited)) :=
  ⟨by decide, pattern_cells_untouched 9 7 (fun n => n * 5 + 2) false
    (by decide) (by decide)⟩

/-- C9: the carving loop terminates — with fuel `2*w*h + 1` the stack is
empty — and each cell is pushed (hence visited) at most once, so the visited
set is duplicate-free and the number of cells ever pushed is at most `w*h`. -/
theorem carve_loop_terminates (w h : Nat) (g : RNG) (hw : 3 ≤ w) (hh : 3 ≤ h) :
    (carveResult w h g).stack = [] ∧
    (carveResult w h g).visited.Nodup ∧
    (carveResult w h g).visited.length ≤ w * h := by
  have hinv := carveResult_inv g (w := w) (h := h) (by omega) (by omega)
  exact ⟨carveResult_stack_empty g (by omega) (by omega), hinv.nodup,
    nodup_length_le hinv.nodup hinv.visRange⟩

theorem carve_loop_terminates_witness :
    3 ≤ 4 ∧
    ((carveResult 4 3 (fun n => 2 * n + 1)).stack = [] ∧
     (carveResult 4 3 (fun n => 2 * n + 1)).visited.Nodup ∧
     (carveResult 4 3 (fun n => 2 * n + 1)).visited.length ≤ 4 * 3) :=
  ⟨by decide, carve_loop_terminates 4 3 (fun n => 2 * n + 1) (by decide) (by decide)⟩

/-- C2: wall symmetry — after construction, after `generate` (either flag) and
after any further sequence of `make_imperfect` calls, for every in-bounds
grid-adjacent pair the wall bit on one side is clear iff the geometrically
opposite bit on the neighbor is clear. -/
theorem wall_symmetry_invariant (w h : Nat) (g : RNG) (perfect : Bool)
    (n idx0 : Nat) (hw : 3 ≤ w) (hh : 3 ≤ h) :
    wallSym w h (initGrid w h) ∧
    wallSym w h (generate w h g perfect).grid ∧
    wallSym w h (imperfectIter w h g (generate w h g perfect).pattern n
      ((generate w h g perfect).grid, (generate w h g perfect).history, idx0)).1 := by
  have hinv := generate_IInv g perfect (w := w) (h := h) (by omega) (by omega)
  refine ⟨wallSym_initGrid w h, hinv.wsym, ?_⟩
  rw [generate_pattern]
  exact (imperfectIter_IInv g (by omega) (by omega) n _ hinv).wsym

theorem wall_symmetry_invariant_witness :
    3 ≤ 3 ∧
    (wallSym 3 3 (initGrid 3 3) ∧
     wallSym 3 3 (generate 3 3 (fun n => n + 2) false).grid ∧
     wallSym 3 3 (imperfectIter 3 3 (fun n => n + 2)
        (generate 3 3 (fun n => n + 2) false).pattern 2
        ((generate 3 3 (fun n => n + 2) false).grid,
         (generate 3 3 (fun n => n + 2) false).history, 0)).1) :=
  ⟨by decide, wall_symmetry_invariant 3 3 (fun n => n + 2) false 2 0
    (by decide) (by decide)⟩

/-- C6: the pattern-fit contract — for dimensions too small the failure flag is
set and the pattern set is empty; otherwise the flag stays false and the set is
non-empty and lies in the centered 7×5 bounding box; the pattern depends only
on width and height (never on the random stream or the perfect flag); and the
carving still runs to completion (empty stack) in both cases. -/
theorem pattern_fit_contract (w h : Nat) (g : RNG) (p : Bool)
    (hw : 3 ≤ w) (hh : 3 ≤ h) :
    ((w < 9 ∨ h < 7) → (generate w h g p).patternFailed = true ∧
      (generate w h g p).pattern = []) ∧
    (9 ≤ w → 7 ≤ h → (generate w h g p).patternFailed = false ∧
      (generate w h g p).pattern ≠ [] ∧
      (∀ c ∈ (generate w h g p).pattern,
        (w - 7) / 2 ≤ c.1 ∧ c.1 ≤ (w - 7) / 2 + 6 ∧
        (h - 5) / 2 ≤ c.2 ∧ c.2 ≤ (h - 5) / 2 + 4)) ∧
    (∀ (g' : RNG) (p' : Bool),
      (generate w h g p).pattern = (generate w h g' p').pattern ∧
      (generate w h g p).patternFailed = (generate w h g' p').patternFailed) ∧
    (carveResult w h g).stack = [] := by
  refine ⟨?_, ?_, ?_, carveResult_stack_empty g (by omega) (by omega)⟩
  · intro hlt
    rw [generate_patternFailed, generate_pattern, embed42_fail hlt]
    exact ⟨rfl, rfl⟩
  · intro hw9 hh7
    rw [generate_patternFailed, generate_pattern]
    refine ⟨by rw [embed42_fit hw9 hh7], ?_, fun c hc => embed42_mem_bounds hc⟩
    rw [embed42_fit hw9 hh7]
    simp [pat4]
  · intro g' p'
    rw [generate_pattern, generate_pattern, generate_patternFailed,
      generate_patternFailed]
    exact ⟨rfl, rfl⟩

theorem pattern_fit_contract_witness :
    3 ≤ 9 ∧
    (((9 < 9 ∨ 7 < 7) → (generate 9 7 (fun n => n) true).patternFailed = true ∧
      (generate 9 7 (fun n => n) true).pattern = []) ∧
    (9 ≤ 9 → 7 ≤ 7 → (generate 9 7 (fun n => n) true).patternFailed = false ∧
      (generate 9 7 (fun n => n) true).pattern ≠ [] ∧
      (∀ c ∈ (generate 9 7 (fun n => n) true).pattern,
        (9 - 7) / 2 ≤ c.1 ∧ c.1 ≤ (9 - 7) / 2 + 6 ∧
        (7 - 5) / 2 ≤ c.2 ∧ c.2 ≤ (7 - 5) / 2 + 4)) ∧
    (∀ (g' : RNG) (p' : Bool),
      (generate 9 7 (fun n => n) true).pattern = (generate 9 7 g' p').pattern ∧
      (generate 9 7 (fun n => n) true).patternFailed =
        (generate 9 7 g' p').patternFailed) ∧
    (carveResult 9 7 (fun n => n)).stack = []) :=
  ⟨by decide, pattern_fit_contract 9 7 (fun n => n) true (by decide) (by decide)⟩

/-- C7: the imperfection pass removes (and records) exactly
`max(1, ⌊0.03·w·h⌋)` extra walls unless the 500-attempt budget is exhausted
first, in which case it stops short with no error; the history grows by exactly
the number of successful removals. -/
theorem imperfection_count (w h : Nat) (g : RNG) (hw : 3 ≤ w) (hh : 3 ≤ h) :
    (generate w h g false).history =
      (makeImperfect w h g (embed42 w h).1 (carveResult w h g).grid
        (carveResult w h g).history (carveResult w h g).idx).2.1 ∧
    (makeImperfect w h g (embed42 w h).1 (carveResult w h g).grid
        (carveResult w h g).history (carveResult w h g).idx).2.1.length =
      (carveResult w h g).history.length +
        (makeImperfect w h g (embed42 w h).1 (carveResult w h g).grid
          (carveResult w h g).history (carveResult w h g).idx).2.2.2.1 ∧
    (makeImperfect w h g (embed42 w h).1 (carveResult w h g).grid
        (carveResult w h g).history (carveResult w h g).idx).2.2.2.1 ≤
      wallsToBreak w h ∧
    ((makeImperfect w h g (embed42 w h).1 (carveResult w h g).grid
        (carveResult w h g).history (carveResult w h g).idx).2.2.2.1 =
          wallsToBreak w h ∨
     (makeImperfect w h g (embed42 w h).1 (carveResult w h g).grid
        (carveResult w h g).history (carveResult w h g).idx).2.2.2.2 = 0) ∧
    wallsToBreak w h = max 1 (3 * (w * h) / 100) := by
  have hcarve := IInv_of_CInv (carveResult_inv (w := w) (h := h) g
    (by omega) (by omega))
  obtain ⟨-, hb, hc, hd⟩ := makeImperfect_spec (w := w) (h := h)
    g (carveResult w h g).idx (by omega) (by omega) hcarve
  exact ⟨rfl, hb, hc, hd, rfl⟩

theorem imperfection_count_witness :
    3 ≤ 5 ∧
    ((generate 5 5 (fun n => n * 3 + 1) false).history =
      (makeImperfect 5 5 (fun n => n * 3 + 1) (embed42 5 5).1
        (carveResult 5 5 (fun n => n * 3 + 1)).grid
        (carveResult 5 5 (fun n => n * 3 + 1)).history
        (carveResult 5 5 (fun n => n * 3 + 1)).idx).2.1 ∧
    (makeImperfect 5 5 (fun n => n * 3 + 1) (embed42 5 5).1
        (carveResult 5 5 (fun n => n * 3 + 1)).grid
        (carveResult 5 5 (fun n => n * 3 + 1)).history
        (carveResult 5 5 (fun n => n * 3 + 1)).idx).2.1.length =
      (carveResult 5 5 (fun n => n * 3 + 1)).history.length +
        (makeImperfect 5 5 (fun n => n * 3 + 1) (embed42 5 5).1
          (carveResult 5 5 (fun n => n * 3 + 1)).grid
          (carveResult 5 5 (fun n => n * 3 + 1)).history
          (carveResult 5 5 (fun n => n * 3 + 1)).idx).2.2.2.1 ∧
    (makeImperfect 5 5 (fun n => n * 3 + 1) (embed42 5 5).1
        (carveResult 5 5 (fun n => n * 3 + 1)).grid
        (carveResult 5 5 (fun n => n * 3 + 1)).history
        (carveResult 5 5 (fun n => n * 3 + 1)).idx).2.2.2.1 ≤
      wallsToBreak 5 5 ∧
    ((makeImperfect 5 5 (fun n => n * 3 + 1) (embed42 5 5).1
        (carveResult 5 5 (fun n => n * 3 + 1)).grid
        (carveResult 5 5 (fun n => n * 3 + 1)).history
        (carveResult 5 5 (fun n => n * 3 + 1)).idx).2.2.2.1 =
          wallsToBreak 5 5 ∨
     (makeImperfect 5 5 (fun n => n * 3 + 1) (embed42 5 5).1
        (carveResult 5 5 (fun n => n * 3 + 1)).grid
        (carveResult 5 5 (fun n => n * 3 + 1)).history
        (carveResult 5 5 (fun n => n * 3 + 1)).idx).2.2.2.2 = 0) ∧
    wallsToBreak 5 5 = max 1 (3 * (5 * 5) / 100)) :=
  ⟨by decide, imperfection_count 5 5 (fun n => n * 3 + 1) (by decide) (by decide)⟩

/-! ### Boundary validation -/

/-- The coordinate lies in `[0, w) × [0, h)`. -/
def inBoundsP (w h : Nat) (p : Int × Int) : Prop :=
  0 ≤ p.1 ∧ p.1 < (w : Int) ∧ 0 ≤ p.2 ∧ p.2 < (h : Int)

instance (w h : Nat) (p : Int × Int) : Decidable (inBoundsP w h p) := by
  unfold inBoundsP; infer_instance

/-- The coordinate lies on the outer perimeter. -/
def onBorderP (w h : Nat) (p : Int × Int) : Prop :=
  p.1 = 0 ∨ p.1 = (w : Int) - 1 ∨ p.2 = 0 ∨ p.2 = (h : Int) - 1

instance (w h : Nat) (p : Int × Int) : Decidable (onBorderP w h p) := by
  unfold onBorderP; infer_instance

theorem land_self (v : Nat) : v &&& v = v := by
  apply Nat.eq_of_testBit_eq
  intro i
  rw [Nat.testBit_land, Bool.and_self]

theorem validate_oob {w h : Nat} {p : Int × Int} (name : String)
    (hp : ¬ inBoundsP w h p) :
    validateBorderPoint w h name p =
      Except.error (name ++ " is outside maze bounds.") := by
  have hp' : ¬ (0 ≤ p.1 ∧ p.1 < (w : Int) ∧ 0 ≤ p.2 ∧ p.2 < (h : Int)) := hp
  unfold validateBorderPoint
  rw [if_pos hp']

theorem validate_not_border {w h : Nat} {p : Int × Int} (name : String)
    (h1 : inBoundsP w h p) (h2 : ¬ onBorderP w h p) :
    validateBorderPoint w h name p =
      Except.error (name ++ " must be on the maze border.") := by
  have h1' : (0 ≤ p.1 ∧ p.1 < (w : Int) ∧ 0 ≤ p.2 ∧ p.2 < (h : Int)) := h1
  have h2' : ¬ (p.1 = 0 ∨ p.1 = (w : Int) - 1 ∨ p.2 = 0 ∨ p.2 = (h : Int) - 1) := h2
  unfold validateBorderPoint
  rw [if_neg (not_not_intro h1'), if_pos h2']

theorem validate_ok {w h : Nat} {p : Int × Int} (name : String)
    (h1 : inBoundsP w h p) (h2 : onBorderP w h p) :
    validateBorderPoint w h name p = Except.ok () := by
  have h1' : (0 ≤ p.1 ∧ p.1 < (w : Int) ∧ 0 ≤ p.2 ∧ p.2 < (h : Int)) := h1
  have h2' : (p.1 = 0 ∨ p.1 = (w : Int) - 1 ∨ p.2 = 0 ∨ p.2 = (h : Int) - 1) := h2
  unfold validateBorderPoint
  rw [if_neg (not_not_intro h1'), if_neg (not_not_intro h2')]

/-- C8: boundary validation — an out-of-bounds point is rejected with the
out-of-bounds error and an in-bounds interior point with the not-on-border
error, whether it is the entry or (with a valid entry) the exit; identical
border points give the equal-points error, and any two distinct border points
pass; on a 5×5 grid `(0,0)`/`(4,4)` pass and `(2,2)` fails. -/
theorem boundary_validation (w h : Nat) :
    (∀ (q p : Int × Int), ¬ inBoundsP w h p →
      setEntryExit w h p q = Except.error ("Entry" ++ " is outside maze bounds.")) ∧
    (∀ (q p : Int × Int), inBoundsP w h p → ¬ onBorderP w h p →
      setEntryExit w h p q = Except.error ("Entry" ++ " must be on the maze border.")) ∧
    (∀ p q : Int × Int, inBoundsP w h p → onBorderP w h p → ¬ inBoundsP w h q →
      setEntryExit w h p q = Except.error ("Exit" ++ " is outside maze bounds.")) ∧
    (∀ p q : Int × Int, inBoundsP w h p → onBorderP w h p → inBoundsP w h q →
      ¬ onBorderP w h q →
      setEntryExit w h p q = Except.error ("Exit" ++ " must be on the maze border.")) ∧
    (∀ p q : Int × Int, inBoundsP w h p → onBorderP w h p → inBoundsP w h q →
      onBorderP w h q → p ≠ q → setEntryExit w h p q = Except.ok ()) ∧
    (∀ p : Int × Int, inBoundsP w h p → onBorderP w h p →
      setEntryExit w h p p =
        Except.error "Entry and Exit cannot be the same coordinate.") ∧
    setEntryExit 5 5 (0, 0) (4, 4) = Except.ok () ∧
    setEntryExit 5 5 (2, 2) (4, 4) =
      Except.error "Entry must be on the maze border." := by
  refine ⟨?_, ?_, ?_, ?_, ?_, ?_, by rfl, by rfl⟩
  · intro q p hp
    unfold setEntryExit
    rw [validate_oob "Entry" hp]
  · intro q p h1 h2
    unfold setEntryExit
    rw [validate_not_border "Entry" h1 h2]
  · intro p q h1 h2 hq
    unfold setEntryExit
    rw [validate_ok "Entry" h1 h2, validate_oob "Exit" hq]
  · intro p q h1 h2 h3 h4
    unfold setEntryExit
    rw [validate_ok "Entry" h1 h2, validate_not_border "Exit" h3 h4]
  · intro p q h1 h2 h3 h4 hne
    unfold setEntryExit
    rw [validate_ok "Entry" h1 h2, validate_ok "Exit" h3 h4]
    show (if p = q then _ else _) = _
    rw [if_neg hne]
  · intro p h1 h2
    unfold setEntryExit
    rw [validate_ok "Entry" h1 h2, validate_ok "Exit" h1 h2]
    show (if p = p then _ else _) = _
    rw [if_pos rfl]

theorem boundary_validation_witness :
    (setEntryExit 5 5 (7, 2) (0, 0) =
      Except.error ("Entry" ++ " is outside maze bounds.")) ∧
    (setEntryExit 5 5 (2, 2) (0, 0) =
      Except.error ("Entry" ++ " must be on the maze border.")) ∧
    (setEntryExit 5 5 (0, 0) (-1, 2) =
      Except.error ("Exit" ++ " is outside maze bounds.")) ∧
    (setEntryExit 5 5 (0, 0) (3, 3) =
      Except.error ("Exit" ++ " must be on the maze border.")) ∧
    (setEntryExit 5 5 (0, 0) (4, 4) = Except.ok ()) ∧
    (setEntryExit 5 5 (0, 3) (0, 3) =
      Except.error "Entry and Exit cannot be the same coordinate.") :=
  ⟨(boundary_validation 5 5).1 (0, 0) (7, 2) (by decide),
   (boundary_validation 5 5).2.1 (0, 0) (2, 2) (by decide) (by decide),
   (boundary_validation 5 5).2.2.1 (0, 0) (-1, 2) (by decide) (by decide)
     (by decide),
   (boundary_validation 5 5).2.2.2.1 (0, 0) (3, 3) (by decide) (by decide)
     (by decide) (by decide),
   (boundary_validation 5 5).2.2.2.2.1 (0, 0) (4, 4) (by decide) (by decide)
     (by decide) (by decide) (by decide),
   (boundary_validation 5 5).2.2.2.2.2.1 (0, 3) (by decide) (by decide)⟩

/-- C10: bitmask range and monotonicity — the grid is initialized to 15
everywhere; after `generate` and any further sequence of `make_imperfect`
calls every in-bounds cell stays in `0..15`; and every `_remove_wall` mutation
only clears bits (the new value is a submask of the old), so wall bits are
never re-added. -/
theorem bitmask_range_monotone (w h : Nat) (g : RNG) (perfect : Bool)
    (n idx0 : Nat) (hw : 3 ≤ w) (hh : 3 ≤ h) :
    (∀ c, inB w h c → gget (initGrid w h) c = ALL_WALLS) ∧
    (∀ c, inB w h c → gget (generate w h g perfect).grid c ≤ 15) ∧
    (∀ c, inB w h c →
      gget (imperfectIter w h g (generate w h g perfect).pattern n
        ((generate w h g perfect).grid,
         (generate w h g perfect).history, idx0)).1 c ≤ 15) ∧
    (∀ (grid : Grid) (hist : List Step) (c u : Cell) (d : Nat) (rec : Bool),
      gridShape w h grid → inB w h c → inB w h u → c ≠ u → isDir d →
      (∀ c', inB w h c' → gget grid c' ≤ 15) →
      ∀ c', gget (removeWall grid hist c.1 c.2 u.1 u.2 d rec).1 c' &&&
          gget grid c' =
        gget (removeWall grid hist c.1 c.2 u.1 u.2 d rec).1 c') := by
  have hinv := generate_IInv g perfect (w := w) (h := h) (by omega) (by omega)
  refine ⟨fun c hc => gget_initGrid hc, hinv.le15, ?_, ?_⟩
  · rw [generate_pattern]
    exact (imperfectIter_IInv g (by omega) (by omega) n _ hinv).le15
  · intro grid hist c u d rec hs hc hu hcu hd hle c'
    by_cases h1 : c' = c
    · subst h1
      rw [removeWall_gget_c hs hc hcu]
      exact removeBit_submask (hle _ hc) hd
    by_cases h2 : c' = u
    · subst h2
      rw [removeWall_gget_n hs hu hcu]
      exact removeBit_submask (hle _ hu) (opposite_isDir hd)
    · rw [removeWall_gget_other h1 h2]
      exact land_self _

theorem bitmask_range_monotone_witness :
    3 ≤ 3 ∧
    ((∀ c, inB 3 3 c → gget (initGrid 3 3) c = ALL_WALLS) ∧
    (∀ c, inB 3 3 c → gget (generate 3 3 (fun n => n * 2) false).grid c ≤ 15) ∧
    (∀ c, inB 3 3 c →
      gget (imperfectIter 3 3 (fun n => n * 2)
        (generate 3 3 (fun n => n * 2) false).pattern 1
        ((generate 3 3 (fun n => n * 2) false).grid,
         (generate 3 3 (fun n => n * 2) false).history, 0)).1 c ≤ 15) ∧
    (∀ (grid : Grid) (hist : List Step) (c u : Cell) (d : Nat) (rec : Bool),
      gridShape 3 3 grid → inB 3 3 c → inB 3 3 u → c ≠ u → isDir d →
      (∀ c', inB 3 3 c' → gget grid c' ≤ 15) →
      ∀ c', gget (removeWall grid hist c.1 c.2 u.1 u.2 d rec).1 c' &&&
          gget grid c' =
        gget (removeWall grid hist c.1 c.2 u.1 u.2 d rec).1 c')) :=
  ⟨by decide, bitmask_range_monotone 3 3 (fun n => n * 2) false 1 0
    (by decide) (by decide)⟩

end AMazeIng
